import Mathlib

/-!
Verification of the classical data-structure and algorithm implementations of
this repository (linked list, binary search tree, graph BFS/DFS, sorting and
searching routines), via a shallow embedding of the Python sources into Lean.

Sources embedded:
* `python/06_Algorithms/02_sorting.py`   : bubble sort, merge sort, quick sort
* `python/06_Algorithms/03_searching.py` : linear search, binary search
* `python/05_DSA_Custom/05_binary_search_tree.py` : BST insert / inorder / search
* `python/05_DSA_Custom/06_graphs.py`    : adjacency-list graph, BFS, DFS
* `python/05_DSA_Custom/02_linked_lists.py` : linked list insert_after

Conventions: Python lists of numbers become `List Int`; in-place mutation
becomes explicit state passing; a Python runtime error (IndexError on an
out-of-range list index, ValueError from `max()` on an empty dict) is
modelled by an `Option` result being `none`.
-/

namespace Roadmap

/-! ## Sorting (`02_sorting.py`) -/

/-- One step of the inner loop of `bubble_sort`: the Python loop
`for j in range(0, n-i-1): if arr[j] > arr[j+1]: swap`, walking the list
from the front with `fuel` comparisons remaining.  At each step the pair
at the front of the unprocessed remainder is the pair `arr[j], arr[j+1]`. -/
def bpass : List Int → Nat → List Int
  | x :: y :: rest, Nat.succ m =>
    if x > y then y :: bpass (x :: rest) m else x :: bpass (y :: rest) m
  | l, _ => l

/-- The outer loop `for i in range(n)` of `bubble_sort`: when `k+1`
iterations remain (out of `n = arr.length` total, so `i = n-(k+1)`),
the inner loop performs `n-i-1 = k` comparisons. -/
def bubbleLoop : List Int → Nat → List Int
  | l, 0 => l
  | l, Nat.succ k => bubbleLoop (bpass l k) k

/-- `bubble_sort(arr)` from `02_sorting.py`. -/
def bubble_sort (arr : List Int) : List Int :=
  bubbleLoop arr arr.length

/-- The merge loop of `merge_sort`:
`while i < len(L) and j < len(R): if L[i] < R[j]: take L[i] else take R[j]`,
followed by the two drain loops.  Generic in the element type and the
comparison (Python compares with the elements' own `<`), so that the
tie-breaking direction is observable on tagged elements. -/
def mergeBy (lt : α → α → Bool) : List α → List α → List α
  | [], r => r
  | l, [] => l
  | a :: l, b :: r =>
    if lt a b then a :: mergeBy lt l (b :: r) else b :: mergeBy lt (a :: l) r

/-- `merge_sort(arr)` from `02_sorting.py`: split at `mid = len(arr)//2`,
recursively sort both halves, merge.  (The Python version overwrites `arr`
in place; the three merge loops write exactly `len(L)+len(R) = len(arr)`
slots, so the final contents are exactly the merge of the sorted halves.) -/
def merge_sortBy (lt : α → α → Bool) (arr : List α) : List α :=
  if h : arr.length > 1 then
    mergeBy lt (merge_sortBy lt (arr.take (arr.length / 2)))
               (merge_sortBy lt (arr.drop (arr.length / 2)))
  else arr
termination_by arr.length
decreasing_by
  · simp only [List.length_take]; omega
  · simp only [List.length_drop]; omega

/-- The Boolean `<` on `Int`, the comparison `merge_sort` uses on numbers. -/
def intLt (a b : Int) : Bool := a < b

/-- `merge_sort` specialised to lists of numbers, as exercised by the script. -/
def merge_sort (arr : List Int) : List Int := merge_sortBy intLt arr

/-- The Python parallel assignment `arr[i], arr[j] = arr[j], arr[i]`. -/
def listSwap (l : List Int) (i j : Nat) : List Int :=
  (l.set i (l.getD j 0)).set j (l.getD i 0)

/-- The partition loop of `partition(arr, low, high)`:
`for j in range(low, high): if arr[j] <= pivot: i += 1; swap(arr[i], arr[j])`.
Here `i` is Python's `i + 1` (Python starts `i` at `low - 1`, which may be
`-1`; this `i` starts at `low` and is the next slot for a `≤ pivot` element,
so Python's increment-then-swap becomes swap-then-increment). -/
def lomuto (arr : List Int) (pivot : Int) (i j high : Nat) : List Int × Nat :=
  if j < high then
    if arr.getD j 0 ≤ pivot then
      lomuto (listSwap arr i j) pivot (i + 1) (j + 1) high
    else
      lomuto arr pivot i (j + 1) high
  else (arr, i)
termination_by high - j

/-- `partition(arr, low, high)` from `02_sorting.py` (Lomuto scheme,
pivot `arr[high]`), returning the rewritten list and the pivot index
`i + 1` (which is `lomuto`'s final `i`, by the shift noted there). -/
def partition (arr : List Int) (low high : Nat) : List Int × Nat :=
  let pr := lomuto arr (arr.getD high 0) low low high
  (listSwap pr.1 pr.2 high, pr.2)

/-- Bounds needed for the recursion of `quick_sort`: the final `i` of
`lomuto` starts at `i` and increments at most once per loop step. -/
theorem lomuto_snd_bounds (arr : List Int) (pivot : Int) (i j high : Nat) :
    i ≤ (lomuto arr pivot i j high).2 ∧
      (lomuto arr pivot i j high).2 ≤ i + (high - j) := by
  induction arr, pivot, i, j, high using lomuto.induct with
  | case1 arr pivot i j high hj hle ih =>
    rw [lomuto, if_pos hj, if_pos hle]
    omega
  | case2 arr pivot i j high hj hle ih =>
    rw [lomuto, if_pos hj, if_neg hle]
    omega
  | case3 arr pivot i j high hj =>
    rw [lomuto, if_neg hj]
    omega

/-- `(partition arr low high).2 ∈ [low, high]` whenever `low ≤ high`. -/
theorem partition_snd_bounds (arr : List Int) (low high : Nat) (h : low ≤ high) :
    low ≤ (partition arr low high).2 ∧ (partition arr low high).2 ≤ high := by
  have := lomuto_snd_bounds arr (arr.getD high 0) low low high
  simp only [partition]
  omega

/-- `quick_sort(arr, low, high)` from `02_sorting.py` (including its
`if len(arr) == 1: return arr` early exit).  Python recurses with
`(low, pi-1)` where `pi-1` may be `-1`; that happens only for
`low = pi = 0`, where Nat truncation gives the call `(0, 0)` whose
`low < high` guard also fails, so truncated subtraction is faithful. -/
def quick_sort (arr : List Int) (low high : Nat) : List Int :=
  if arr.length = 1 then arr
  else if h : low < high then
    let pr := partition arr low high
    quick_sort (quick_sort pr.1 low (pr.2 - 1)) (pr.2 + 1) high
  else arr
termination_by high - low
decreasing_by
  · have := partition_snd_bounds arr low high (Nat.le_of_lt h)
    omega
  · have := partition_snd_bounds arr low high (Nat.le_of_lt h)
    omega

/-- The call `quick_sort(arr, 0, len(arr)-1)` used by the script
(claim C3's entry point). -/
def quick_sortTop (arr : List Int) : List Int :=
  quick_sort arr 0 (arr.length - 1)

/-! ## Searching (`03_searching.py`) -/

/-- The loop of `linear_search`: `for i in range(len(arr)): if arr[i] == x:
return i`, with `i` the index of the current head. -/
def lsAux : List Int → Int → Nat → Int
  | [], _, _ => -1
  | a :: rest, x, i => if a = x then (i : Int) else lsAux rest x (i + 1)

/-- `linear_search(arr, x)` from `03_searching.py`: first matching index,
or `-1`. -/
def linear_search (arr : List Int) (x : Int) : Int := lsAux arr x 0

/-- `binary_search(arr, low, high, x)` from `03_searching.py`.  Indices are
`Int` (Python's `high` is `-1` on the empty list); `mid = (high + low) // 2`
is Python floor division, which is Lean's `Int` `/`, here inlined at each
use; `arr[mid]` is read at `mid.toNat` (whenever the branch is entered,
`0 ≤ low ≤ mid`). -/
def binary_search (arr : List Int) (low high : Int) (x : Int) : Int :=
  if h : high ≥ low then
    if arr.getD ((high + low) / 2).toNat 0 = x then (high + low) / 2
    else if arr.getD ((high + low) / 2).toNat 0 > x then
      binary_search arr low ((high + low) / 2 - 1) x
    else binary_search arr ((high + low) / 2 + 1) high x
  else -1
termination_by (high + 1 - low).toNat
decreasing_by
  · omega
  · omega

/-! ## Binary search tree (`05_binary_search_tree.py`) -/

/-- A BST node (`Node`): `val` plus optional left/right children; `leaf`
is Python's `None`. -/
inductive Tree where
  | leaf : Tree
  | node (left : Tree) (val : Int) (right : Tree) : Tree
deriving DecidableEq, Repr

/-- `insert(root, key)` from `05_binary_search_tree.py`:
`if root is None: return Node(key)`; `if root.val < key` recurse right,
else recurse left. -/
def insert : Tree → Int → Tree
  | Tree.leaf, key => Tree.node Tree.leaf key Tree.leaf
  | Tree.node l v r, key =>
    if v < key then Tree.node l v (insert r key) else Tree.node (insert l key) v r

/-- `inorder(root)`: the sequence of keys printed by the left-root-right
traversal. -/
def inorder : Tree → List Int
  | Tree.leaf => []
  | Tree.node l v r => inorder l ++ v :: inorder r

/-- `search(root, key)`: `None` (here `none`) when absent, otherwise the
node whose `val` equals `key`; `if root.val < key` recurse right, else
recurse left. -/
def search : Tree → Int → Option Tree
  | Tree.leaf, _ => none
  | Tree.node l v r, key =>
    if v = key then some (Tree.node l v r)
    else if v < key then search r key
    else search l key

/-- The key at the root of a tree (`node.val` of a returned node). -/
def rootVal : Tree → Option Int
  | Tree.leaf => none
  | Tree.node _ v _ => some v

/-- Building a tree by repeated `r = insert(r, key)` from an empty tree. -/
def insertAll (keys : List Int) : Tree := keys.foldl insert Tree.leaf

/-! ## Linked list (`02_linked_lists.py`) -/

/-- A linked-list state, abstracted to the sequence of node data reached by
following `next` links from `head` (the list invariant of the spec: the
chain is finite and acyclic, so it is exactly this sequence).  A node
reference is the position of the node in that chain; `none` models a
null/absent `prev_node` argument. -/
def insert_after (l : List Int) (prev_node : Option Nat) (new_data : Int) :
    List Int × Bool :=
  match prev_node with
  | none => (l, true)
  | some p => (l.take (p + 1) ++ new_data :: l.drop (p + 1), false)

/-! ## Graph (`06_graphs.py`) -/

/-- The `defaultdict(list)` of `Graph.__init__`: an insertion-ordered
association list from vertex to adjacency list, each key occurring once. -/
abbrev GraphMap := List (Nat × List Nat)

/-- Subscripting a `defaultdict(list)`: return the stored list, or create
(and keep) an empty entry for a missing key.  Returns the looked-up list
and the possibly-extended mapping. -/
def ddLookup (g : GraphMap) (u : Nat) : List Nat × GraphMap :=
  match g.find? (fun p => p.1 = u) with
  | some p => (p.2, g)
  | none => ([], g ++ [(u, [])])

/-- `add_edge(u, v)`: `self.graph[u].append(v)` — append `v` to `u`'s
adjacency list, creating the entry if needed. -/
def add_edge (g : GraphMap) (u v : Nat) : GraphMap :=
  if (g.find? (fun p => p.1 = u)).isSome then
    g.map (fun p => if p.1 = u then (p.1, p.2 ++ [v]) else p)
  else g ++ [(u, [v])]

/-- A graph built from an empty `Graph()` by a sequence of `add_edge` calls. -/
def buildGraph (edges : List (Nat × Nat)) : GraphMap :=
  edges.foldl (fun g e => add_edge g e.1 e.2) []

/-- The keys of the mapping (the dict's iteration view, as used by
`max(self.graph)`). -/
def keysOf (g : GraphMap) : List Nat := g.map (fun p => p.1)

/-- `max(self.graph)`: greatest key (`0` placeholder on the empty dict,
where Python raises instead; `bfs` checks emptiness separately). -/
def maxKey (g : GraphMap) : Nat := (keysOf g).foldr max 0

/-- The adjacency list of `u` as a pure read (empty for a missing key).
`ddLookup` returns exactly this and never changes it (auto-created
entries are empty). -/
def adjOf (g : GraphMap) (u : Nat) : List Nat :=
  match g.find? (fun p => p.1 = u) with
  | some p => p.2
  | none => []

/-- The inner loop of `bfs`: `for i in self.graph[s]: if visited[i] ==
False: queue.append(i); visited[i] = True`.  Reading `visited[i]` out of
range raises IndexError, modelled by `none`. -/
def enqueueNbrs : List Nat → List Bool → List Nat → Option (List Bool × List Nat)
  | [], visited, queue => some (visited, queue)
  | i :: rest, visited, queue =>
    match visited[i]? with
    | none => none
    | some b =>
      if b then enqueueNbrs rest visited queue
      else enqueueNbrs rest (visited.set i true) (queue ++ [i])

/-- Each appended queue entry flips one `false` flag to `true`, so
`queue.length + (number of false flags)` never grows; this justifies the
termination of the `while queue` loop of `bfs`. -/
theorem enqueueNbrs_measure (nbrs : List Nat) (visited : List Bool)
    (queue : List Nat) (visited' : List Bool) (queue' : List Nat)
    (h : enqueueNbrs nbrs visited queue = some (visited', queue')) :
    queue'.length + visited'.count false ≤ queue.length + visited.count false := by
  induction nbrs generalizing visited queue with
  | nil =>
    simp only [enqueueNbrs, Option.some.injEq, Prod.mk.injEq] at h
    rw [h.1, h.2]
  | cons i rest ih =>
    rw [enqueueNbrs] at h
    cases hv : visited[i]? with
    | none => rw [hv] at h; cases h
    | some b =>
      rw [hv] at h
      cases b with
      | true =>
        simp only [if_true] at h
        exact ih visited queue h
      | false =>
        simp only [Bool.false_eq_true, if_false] at h
        rcases List.getElem?_eq_some.mp hv with ⟨hlen, hfalse⟩
        have hpos : 0 < visited.count false :=
          List.count_pos_iff.mpr (hfalse ▸ List.getElem_mem hlen)
        have hcount := List.count_set true false visited i hlen
        rw [hfalse] at hcount
        simp only [beq_self_eq_true, if_true, beq_iff_eq, Bool.true_eq_false,
          if_false] at hcount
        have hle := ih (visited.set i true) (queue ++ [i]) h
        rw [hcount] at hle
        simp only [List.length_append, List.length_cons, List.length_nil] at hle ⊢
        omega

/-- The `while queue:` loop of `bfs`: pop the head `s`, print it, look up
`self.graph[s]` (a defaultdict access, which may extend the mapping), and
enqueue its unvisited neighbours.  Returns the printed order and the final
mapping, or `none` on an IndexError. -/
def bfsLoop (g : GraphMap) (queue : List Nat) (visited : List Bool) :
    Option (List Nat × GraphMap) :=
  match queue with
  | [] => some ([], g)
  | s :: rest =>
    match h : enqueueNbrs (ddLookup g s).1 visited rest with
    | none => none
    | some vq =>
      match bfsLoop (ddLookup g s).2 vq.2 vq.1 with
      | none => none
      | some og => some (s :: og.1, og.2)
termination_by queue.length + visited.count false
decreasing_by
  have := enqueueNbrs_measure (ddLookup g s).1 visited rest vq.1 vq.2 h
  simp only [List.length_cons]
  omega

/-- `bfs(self, s)` from `06_graphs.py`: `visited = [False] * (max(self.graph)
+ 1)`; `max()` on an empty dict raises (modelled `none`), and so does the
initial `visited[s] = True` when `s` is out of range. -/
def bfs (g : GraphMap) (s : Nat) : Option (List Nat × GraphMap) :=
  match keysOf g with
  | [] => none
  | _ :: _ =>
    let visited := List.replicate (maxKey g + 1) false
    if s < visited.length then
      bfsLoop g [s] (visited.set s true)
    else none

/-- The `for neighbour in self.graph[v]` loop of `dfs_util`, with `rec` the
recursive call at one unit less fuel: skip visited neighbours, otherwise
descend (threading the mapping, the visited set, and the printed order). -/
def dfsNbrs (rec : GraphMap → Nat → List Nat → Option (GraphMap × List Nat × List Nat)) :
    List Nat → GraphMap → List Nat → Option (GraphMap × List Nat × List Nat)
  | [], g, vis => some (g, vis, [])
  | n :: rest, g, vis =>
    if n ∈ vis then dfsNbrs rec rest g vis
    else
      match rec g n vis with
      | none => none
      | some gvo =>
        match dfsNbrs rec rest gvo.1 gvo.2.1 with
        | none => none
        | some gvo2 => some (gvo2.1, gvo2.2.1, gvo.2.2 ++ gvo2.2.2)

/-- `dfs_util(self, v, visited)` from `06_graphs.py`: `visited.add(v)`
(the Python set, modelled as a list of members in insertion order), print
`v`, then recurse into unvisited neighbours of `self.graph[v]` (a
defaultdict access).  The `fuel` bounds the recursion depth; actual runs
are given fuel exceeding the number of distinct vertices, which is never
exhausted (each nested call strictly grows `visited`). -/
def dfsUtil : Nat → GraphMap → Nat → List Nat → Option (GraphMap × List Nat × List Nat)
  | 0, _, _, _ => none
  | Nat.succ fuel, g, v, vis =>
    match dfsNbrs (dfsUtil fuel) (ddLookup g v).1 (ddLookup g v).2 (vis ++ [v]) with
    | none => none
    | some gvo => some (gvo.1, gvo.2.1, v :: gvo.2.2)

/-- All vertices mentioned by the mapping (keys and adjacency targets);
every vertex the traversals can reach is among these or is the start. -/
def vertsOf (g : GraphMap) : List Nat :=
  g.foldr (fun p acc => p.1 :: p.2 ++ acc) []

/-- `dfs(self, v)`: run `dfs_util` with `visited = set()`, giving it more
fuel than there are distinct vertices. -/
def dfs (g : GraphMap) (v : Nat) : Option (GraphMap × List Nat × List Nat) :=
  dfsUtil ((v :: vertsOf g).length + 1) g v []

/-- Reachability from `u` to `w` along directed edges of the adjacency
view, with every vertex on the path (endpoints included) outside `avoid`. -/
inductive ReachAvoid (adj : Nat → List Nat) (avoid : List Nat) : Nat → Nat → Prop where
  | refl (u : Nat) (h : u ∉ avoid) : ReachAvoid adj avoid u u
  | cons (u w x : Nat) (hu : u ∉ avoid) (hw : w ∈ adj u)
      (hr : ReachAvoid adj avoid w x) : ReachAvoid adj avoid u x

/-- Plain reachability (`avoid = []`): `u` reaches `w` along edges. -/
def Reach (adj : Nat → List Nat) (u w : Nat) : Prop := ReachAvoid adj [] u w

/-! ## C9: `insert_after` with a null target -/

/-- C9: for every linked list, `insertAfter` called with an absent/null
target node reports the invalid-reference condition (the Boolean flag,
Python's printed message, not an exception) and performs no mutation: the
chain of node data reached from the head — hence the head, every `next`
link, and the length — is unchanged. -/
theorem insert_after_null_no_mutation (l : List Int) (x : Int) :
    insert_after l none x = (l, true) ∧
      (insert_after l none x).1.length = l.length := by
  constructor
  · rfl
  · rfl

/-! ## C1: where duplicate keys go in the BST -/

/-- C1 counterexample: after inserting key 5 twice into an empty tree, the
duplicate sits in the LEFT subtree of the node holding the equal key — the
right subtree is still empty — contradicting the claim that duplicates are
placed in the right subtree. -/
theorem insert_duplicate_goes_left_example :
    insert (insert Tree.leaf 5) 5
      = Tree.node (Tree.node Tree.leaf 5 Tree.leaf) 5 Tree.leaf := by
  decide

/-- C1 amended: at each node, keys less than or EQUAL to the node's key
descend leftward (`insert` recurses right only when `root.val < key`), so
re-inserting a present key places the duplicate in the left subtree of the
node holding the equal key. -/
theorem insert_le_key_goes_left (l r : Tree) (v k : Int) (h : k ≤ v) :
    insert (Tree.node l v r) k = Tree.node (insert l k) v r := by
  rw [insert, if_neg (not_lt.mpr h)]

/-- Witness for `insert_le_key_goes_left` at the duplicate key 5. -/
theorem insert_le_key_goes_left_witness :
    insert (Tree.node Tree.leaf (5 : Int) Tree.leaf)
      5 = Tree.node (insert Tree.leaf 5) 5 Tree.leaf :=
  insert_le_key_goes_left Tree.leaf Tree.leaf 5 5 (le_refl 5)

/-! ## C2: tie direction of the merge step -/

/-- The element comparison of `merge_sort` applied to key-tagged elements
(`<` compares the keys; the tag records the element's half of origin),
making the tie direction of the merge observable. -/
def pairLt (a b : Int × Nat) : Bool := a.1 < b.1

/-- C2 counterexample: merging `[(5,0)]` (left half) with `[(5,1)]` (right
half) under the key comparison copies the RIGHT element first, not the
left one as claimed. -/
theorem mergeBy_tie_takes_right_example :
    mergeBy pairLt [(5, 0)] [(5, 1)] = [(5, 1), (5, 0)] ∧
      mergeBy pairLt [(5, 0)] [(5, 1)] ≠ [(5, 0), (5, 1)] := by
  simp [mergeBy, pairLt]

/-- C2 amended: when the head of the left half does not compare strictly
below the head of the right half — in particular when the two heads are
equal — the merge loop (`if L[i] < R[j]` … `else` take `R[j]`) copies the
RIGHT element first, so equal elements from the two halves swap their
original relative order (the merge is right-biased on ties, not stable). -/
theorem mergeBy_tie_takes_right (lt : α → α → Bool) (a : α) (l : List α)
    (b : α) (r : List α) (h : lt a b = false) :
    mergeBy lt (a :: l) (b :: r) = b :: mergeBy lt (a :: l) r := by
  rw [mergeBy, h]
  simp

/-- Witness for `mergeBy_tie_takes_right` at the equal-keys example. -/
theorem mergeBy_tie_takes_right_witness :
    mergeBy pairLt [((5 : Int), 0)] [(5, 1)] = (5, 1) :: mergeBy pairLt [(5, 0)] [] :=
  mergeBy_tie_takes_right pairLt (5, 0) [] (5, 1) [] (by decide)

/-! ## BST invariant and the C4/C5 lemmas -/

/-- The search-tree invariant `insert` maintains: at every node, left-subtree
keys are `≤` the node's key and right-subtree keys are `>` it (ties left). -/
def Bst : Tree → Prop
  | Tree.leaf => True
  | Tree.node l v r =>
    (∀ x ∈ inorder l, x ≤ v) ∧ (∀ x ∈ inorder r, v < x) ∧ Bst l ∧ Bst r

theorem inorder_insert_perm (t : Tree) (k : Int) :
    List.Perm (inorder (insert t k)) (k :: inorder t) := by
  induction t with
  | leaf => simp [insert, inorder]
  | node l v r ihl ihr =>
    by_cases h : v < k
    · rw [insert, if_pos h]
      simp only [inorder]
      have s1 : List.Perm (inorder l ++ v :: inorder (insert r k))
          (inorder l ++ v :: k :: inorder r) :=
        List.Perm.append_left _ (List.Perm.cons v ihr)
      have s2 : List.Perm (inorder l ++ v :: k :: inorder r)
          (inorder l ++ k :: v :: inorder r) :=
        List.Perm.append_left _ (List.Perm.swap k v _)
      have s3 : List.Perm (inorder l ++ k :: v :: inorder r)
          (k :: (inorder l ++ v :: inorder r)) := List.perm_middle
      exact (s1.trans s2).trans s3
    · rw [insert, if_neg h]
      simp only [inorder]
      exact List.Perm.append ihl (List.Perm.refl _)

theorem mem_inorder_insert (t : Tree) (k x : Int) :
    x ∈ inorder (insert t k) ↔ x = k ∨ x ∈ inorder t := by
  rw [(inorder_insert_perm t k).mem_iff]
  exact List.mem_cons

theorem Bst_insert (t : Tree) (k : Int) (h : Bst t) : Bst (insert t k) := by
  induction t with
  | leaf => simp [insert, Bst, inorder]
  | node l v r ihl ihr =>
    rcases h with ⟨hl, hr, bl, br⟩
    by_cases hv : v < k
    · rw [insert, if_pos hv]
      refine ⟨hl, ?_, bl, ihr br⟩
      intro x hx
      rcases (mem_inorder_insert r k x).mp hx with rfl | hx
      · exact hv
      · exact hr x hx
    · rw [insert, if_neg hv]
      refine ⟨?_, hr, ihl bl, br⟩
      intro x hx
      rcases (mem_inorder_insert l k x).mp hx with rfl | hx
      · exact not_lt.mp hv
      · exact hl x hx

theorem Bst_sorted (t : Tree) (h : Bst t) : List.Sorted (· ≤ ·) (inorder t) := by
  induction t with
  | leaf => simp [inorder, List.Sorted]
  | node l v r ihl ihr =>
    rcases h with ⟨hl, hr, bl, br⟩
    simp only [inorder, List.Sorted, List.pairwise_append, List.pairwise_cons]
    refine ⟨ihl bl, ⟨fun x hx => le_of_lt (hr x hx), ihr br⟩, ?_⟩
    intro a ha b hb
    rcases List.mem_cons.mp hb with rfl | hb
    · exact hl a ha
    · exact le_trans (hl a ha) (le_of_lt (hr b hb))

theorem insertAll_go_perm (ks : List Int) :
    ∀ t : Tree, List.Perm (inorder (ks.foldl insert t)) (ks ++ inorder t) := by
  induction ks with
  | nil => intro t; simp
  | cons k ks ih =>
    intro t
    have s1 : List.Perm (inorder (ks.foldl insert (insert t k)))
        (ks ++ inorder (insert t k)) := ih _
    have s2 : List.Perm (ks ++ inorder (insert t k)) (ks ++ k :: inorder t) :=
      List.Perm.append_left _ (inorder_insert_perm t k)
    have s3 : List.Perm (ks ++ k :: inorder t) (k :: (ks ++ inorder t)) :=
      List.perm_middle
    exact ((s1.trans s2).trans s3)

theorem inorder_insertAll_perm (ks : List Int) :
    List.Perm (inorder (insertAll ks)) ks := by
  have := insertAll_go_perm ks Tree.leaf
  simpa [inorder] using this

theorem Bst_insertAll (ks : List Int) : Bst (insertAll ks) := by
  have go : ∀ t : Tree, Bst t → Bst (ks.foldl insert t) := by
    induction ks with
    | nil => intro t h; exact h
    | cons k ks ih => intro t h; exact ih (insert t k) (Bst_insert t k h)
  exact go Tree.leaf trivial

/-- C4: for every sequence of keys inserted into an initially empty BST,
the inorder traversal emits exactly the multiset of inserted keys
(a permutation, duplicates included) in non-decreasing order. -/
theorem inorder_insertAll_sorted_perm (ks : List Int) :
    List.Sorted (· ≤ ·) (inorder (insertAll ks)) ∧
      List.Perm (inorder (insertAll ks)) ks :=
  ⟨Bst_sorted _ (Bst_insertAll ks), inorder_insertAll_perm ks⟩

theorem search_eq_some_rootVal (t : Tree) (k : Int) :
    ∀ res, search t k = some res → rootVal res = some k := by
  induction t with
  | leaf => intro res h; cases h
  | node l v r ihl ihr =>
    intro res h
    rw [search] at h
    by_cases hv : v = k
    · rw [if_pos hv] at h
      cases h
      rw [rootVal, hv]
    · rw [if_neg hv] at h
      by_cases hlt : v < k
      · rw [if_pos hlt] at h; exact ihr res h
      · rw [if_neg hlt] at h; exact ihl res h

theorem search_isSome_iff_mem (t : Tree) (k : Int) (h : Bst t) :
    (search t k).isSome ↔ k ∈ inorder t := by
  induction t with
  | leaf => simp [search, inorder]
  | node l v r ihl ihr =>
    rcases h with ⟨hl, hr, bl, br⟩
    rw [search]
    by_cases hv : v = k
    · simp only [if_pos hv, Option.isSome_some, true_iff]
      simp [inorder, hv]
    · rw [if_neg hv]
      by_cases hlt : v < k
      · rw [if_pos hlt, ihr br]
        simp only [inorder, List.mem_append, List.mem_cons]
        constructor
        · intro hk; exact Or.inr (Or.inr hk)
        · rintro (hk | hk | hk)
          · exact absurd hlt (not_lt.mpr (hl k hk))
          · exact absurd hk.symm hv
          · exact hk
      · rw [if_neg hlt, ihl bl]
        simp only [inorder, List.mem_append, List.mem_cons]
        constructor
        · intro hk; exact Or.inl hk
        · rintro (hk | hk | hk)
          · exact hk
          · exact absurd hk.symm hv
          · exact absurd (hr k hk) hlt

/-- C5: on a BST built by `insert` from an empty tree, `search` returns a
node exactly when the key was previously inserted, and any returned node
carries the searched key; otherwise it returns `none`. -/
theorem search_insertAll_found_iff (ks : List Int) (k : Int) :
    ((search (insertAll ks) k).isSome ↔ k ∈ ks) ∧
      (∀ res, search (insertAll ks) k = some res → rootVal res = some k) := by
  constructor
  · rw [search_isSome_iff_mem _ _ (Bst_insertAll ks)]
    exact (inorder_insertAll_perm ks).mem_iff
  · exact search_eq_some_rootVal _ _

/-! ## Merge sort correctness (for C3) -/

theorem mergeBy_perm (lt : α → α → Bool) (l r : List α) :
    List.Perm (mergeBy lt l r) (l ++ r) := by
  induction l, r using mergeBy.induct lt with
  | case1 r => simp [mergeBy]
  | case2 l h => cases l with
    | nil => simp at h
    | cons a l => simp [mergeBy]
  | case3 a l b r hlt ih =>
    rw [mergeBy, if_pos hlt]
    exact List.Perm.cons a ih
  | case4 a l b r hlt ih =>
    rw [mergeBy, if_neg hlt]
    exact (List.Perm.cons b ih).trans List.perm_middle.symm

theorem mem_mergeBy (lt : α → α → Bool) (l r : List α) (x : α) :
    x ∈ mergeBy lt l r ↔ x ∈ l ∨ x ∈ r := by
  rw [(mergeBy_perm lt l r).mem_iff]
  exact List.mem_append

theorem mergeBy_intLt_sorted (l r : List Int)
    (hl : List.Sorted (· ≤ ·) l) (hr : List.Sorted (· ≤ ·) r) :
    List.Sorted (· ≤ ·) (mergeBy intLt l r) := by
  induction l, r using mergeBy.induct intLt with
  | case1 r => simpa [mergeBy] using hr
  | case2 l h => cases l with
    | nil => simp at h
    | cons a l => simpa [mergeBy] using hl
  | case3 a l b r hlt ih =>
    rw [mergeBy, if_pos hlt]
    rw [List.sorted_cons] at hl ⊢
    refine ⟨?_, ih hl.2 hr⟩
    intro y hy
    rcases (mem_mergeBy intLt l (b :: r) y).mp hy with hy | hy
    · exact hl.1 y hy
    · have hab : a ≤ b := by
        have : (a < b) = True := by
          simpa [intLt] using hlt
        exact le_of_lt (of_eq_true this)
      rcases List.mem_cons.mp hy with rfl | hy
      · exact hab
      · exact le_trans hab (List.rel_of_sorted_cons hr y hy)
  | case4 a l b r hlt ih =>
    rw [mergeBy, if_neg hlt]
    rw [List.sorted_cons] at hr ⊢
    have hba : b ≤ a := by
      have : ¬ a < b := by simpa [intLt] using hlt
      exact le_of_not_lt this
    refine ⟨?_, ih hl hr.2⟩
    intro y hy
    rcases (mem_mergeBy intLt (a :: l) r y).mp hy with hy | hy
    · rcases List.mem_cons.mp hy with rfl | hy
      · exact hba
      · exact le_trans hba (List.rel_of_sorted_cons hl y hy)
    · exact hr.1 y hy

theorem merge_sort_perm (arr : List Int) : List.Perm (merge_sort arr) arr := by
  rw [merge_sort]
  induction arr using merge_sortBy.induct intLt with
  | case1 arr h ih1 ih2 =>
    rw [merge_sortBy, dif_pos h]
    refine ((mergeBy_perm intLt _ _).trans ?_)
    have := List.Perm.append ih1 ih2
    exact this.trans (by rw [List.take_append_drop])
  | case2 arr h =>
    rw [merge_sortBy, dif_neg h]

theorem merge_sort_sorted (arr : List Int) :
    List.Sorted (· ≤ ·) (merge_sort arr) := by
  rw [merge_sort]
  induction arr using merge_sortBy.induct intLt with
  | case1 arr h ih1 ih2 =>
    rw [merge_sortBy, dif_pos h]
    exact mergeBy_intLt_sorted _ _ ih1 ih2
  | case2 arr h =>
    rw [merge_sortBy, dif_neg h]
    have hlen : arr.length ≤ 1 := by omega
    match arr, hlen with
    | [], _ => simp
    | [a], _ => simp

/-! ## Bubble sort correctness (for C3) -/

theorem bpass_perm (l : List Int) (m : Nat) : List.Perm (bpass l m) l := by
  induction l, m using bpass.induct with
  | case1 x y rest m hgt ih =>
    rw [bpass, if_pos hgt]
    exact (List.Perm.cons y ih).trans (List.Perm.swap x y rest)
  | case2 x y rest m hgt ih =>
    rw [bpass, if_neg hgt]
    exact List.Perm.cons x ih
  | case3 t l h =>
    rw [bpass.eq_def]
    match l, t with
    | [], _ => rfl
    | [x], _ => rfl
    | x :: y :: rest, 0 => rfl
    | x :: y :: rest, Nat.succ m => exact (h x y rest m rfl rfl).elim

theorem bpass_length (l : List Int) (m : Nat) : (bpass l m).length = l.length :=
  (bpass_perm l m).length_eq

/-- The inner loop with `m` comparisons only rewrites the first `m + 1`
positions; the tail beyond them rides along unchanged. -/
theorem bpass_split (l : List Int) (m : Nat) :
    bpass l m = bpass (l.take (m + 1)) m ++ l.drop (m + 1) := by
  induction l, m using bpass.induct with
  | case1 x y rest m hgt ih =>
    rw [bpass, if_pos hgt]
    show _ = bpass (x :: y :: rest.take m) (m + 1) ++ rest.drop m
    rw [bpass, if_pos hgt, ih]
    rfl
  | case2 x y rest m hgt ih =>
    rw [bpass, if_neg hgt]
    show _ = bpass (x :: y :: rest.take m) (m + 1) ++ rest.drop m
    rw [bpass, if_neg hgt, ih]
    rfl
  | case3 t l h =>
    match l, t with
    | [], _ => simp [bpass.eq_def]
    | [x], t => rw [bpass.eq_def]
                rw [show ([x] : List Int).take (t + 1) = [x] from by simp]
                rw [bpass.eq_def]
                simp
    | x :: y :: rest, 0 => simp [bpass.eq_def]
    | x :: y :: rest, Nat.succ m => exact (h x y rest m rfl rfl).elim

/-- A full pass (fuel at least `length - 1`) bubbles a maximum of the list
into the last position. -/
theorem bpass_max (m : Nat) : ∀ l : List Int, l ≠ [] → l.length ≤ m + 1 →
    ∃ l' mx, bpass l m = l' ++ [mx] ∧ ∀ x ∈ l', x ≤ mx := by
  induction m with
  | zero =>
    intro l hne hlen
    match l with
    | [x] => exact ⟨[], x, rfl, by simp⟩
  | succ m ih =>
    intro l hne hlen
    match l with
    | [x] => exact ⟨[], x, rfl, by simp⟩
    | x :: y :: rest =>
      by_cases hgt : x > y
      · rw [bpass, if_pos hgt]
        obtain ⟨l', mx, heq, hmax⟩ := ih (x :: rest) (by simp)
          (by simpa using Nat.le_of_succ_le_succ hlen)
        refine ⟨y :: l', mx, by rw [heq]; rfl, ?_⟩
        intro z hz
        have hxmem : x ∈ l' ++ [mx] := by
          rw [← heq, (bpass_perm _ _).mem_iff]
          exact List.mem_cons_self x rest
        have hxle : x ≤ mx := by
          rcases List.mem_append.mp hxmem with hx | hx
          · exact hmax x hx
          · simp only [List.mem_singleton] at hx
            exact hx ▸ le_refl mx
        rcases List.mem_cons.mp hz with rfl | hz
        · exact le_trans (le_of_lt hgt) hxle
        · exact hmax z hz
      · rw [bpass, if_neg hgt]
        obtain ⟨l', mx, heq, hmax⟩ := ih (y :: rest) (by simp)
          (by simpa using Nat.le_of_succ_le_succ hlen)
        refine ⟨x :: l', mx, by rw [heq]; rfl, ?_⟩
        intro z hz
        have hymem : y ∈ l' ++ [mx] := by
          rw [← heq, (bpass_perm _ _).mem_iff]
          exact List.mem_cons_self y rest
        have hyle : y ≤ mx := by
          rcases List.mem_append.mp hymem with hy | hy
          · exact hmax y hy
          · simp only [List.mem_singleton] at hy
            exact hy ▸ le_refl mx
        rcases List.mem_cons.mp hz with rfl | hz
        · exact le_trans (le_of_not_lt hgt) hyle
        · exact hmax z hz

theorem bubbleLoop_spec : ∀ (k : Nat) (l : List Int), k ≤ l.length →
    List.Sorted (· ≤ ·) (l.drop k) →
    (∀ x ∈ l.take k, ∀ y ∈ l.drop k, x ≤ y) →
    List.Sorted (· ≤ ·) (bubbleLoop l k) ∧ List.Perm (bubbleLoop l k) l := by
  intro k
  induction k with
  | zero =>
    intro l _ hsort _
    rw [bubbleLoop]
    exact ⟨by simpa using hsort, List.Perm.refl l⟩
  | succ k ih =>
    intro l hk hsort hcross
    rw [bubbleLoop]
    have htne : l.take (k + 1) ≠ [] := by
      have : (l.take (k + 1)).length = k + 1 := by
        rw [List.length_take]; omega
      intro hcon
      rw [hcon] at this
      simp at this
    have htlen : (l.take (k + 1)).length = k + 1 := by
      rw [List.length_take]; omega
    obtain ⟨t', mx, heq, hmax⟩ := bpass_max k (l.take (k + 1)) htne (by omega)
    have hsplit : bpass l k = (t' ++ [mx]) ++ l.drop (k + 1) := by
      rw [bpass_split, heq]
    have ht'len : t'.length = k := by
      have := bpass_length (l.take (k + 1)) k
      rw [heq] at this
      simp only [List.length_append, List.length_singleton, htlen] at this
      omega
    have hmxmem : mx ∈ l.take (k + 1) := by
      have : mx ∈ bpass (l.take (k + 1)) k := by
        rw [heq]; simp
      rwa [(bpass_perm _ _).mem_iff] at this
    have hmxle : ∀ y ∈ l.drop (k + 1), mx ≤ y := fun y hy => hcross mx hmxmem y hy
    have hdrop1 : (bpass l k).drop k = mx :: l.drop (k + 1) := by
      rw [hsplit, List.append_assoc, ← ht'len, List.drop_left]
      rfl
    have htake1 : (bpass l k).take k = t' := by
      rw [hsplit, List.append_assoc, ← ht'len, List.take_left]
    have hres := ih (bpass l k)
      (by rw [bpass_length]; omega)
      (by rw [hdrop1, List.sorted_cons]; exact ⟨hmxle, hsort⟩)
      (by
        rw [hdrop1, htake1]
        intro x hx y hy
        rcases List.mem_cons.mp hy with rfl | hy
        · exact hmax x hx
        · exact le_trans (hmax x hx) (hmxle y hy))
    exact ⟨hres.1, hres.2.trans (bpass_perm l k)⟩

/-! ## Quick sort correctness (for C3) -/

theorem getD_set {α : Type} (l : List α) (i : Nat) (x : α) (k : Nat) (d : α) :
    (l.set i x).getD k d = if i = k ∧ i < l.length then x else l.getD k d := by
  rw [List.getD_eq_getElem?_getD, List.getElem?_set, List.getD_eq_getElem?_getD]
  by_cases h1 : i = k
  · subst h1
    by_cases h2 : i < l.length
    · simp [h2]
    · have hnone : l[i]? = none := List.getElem?_eq_none (by omega)
      simp [h2, hnone]
  · simp [h1]

theorem length_listSwap (l : List Int) (i j : Nat) :
    (listSwap l i j).length = l.length := by
  simp [listSwap]

theorem getD_listSwap (l : List Int) (i j k : Nat)
    (hi : i < l.length) (hj : j < l.length) :
    (listSwap l i j).getD k 0 =
      if k = j then l.getD i 0 else if k = i then l.getD j 0 else l.getD k 0 := by
  rw [listSwap, getD_set, getD_set, List.length_set]
  by_cases h1 : k = j
  · subst h1
    simp [hj]
  · by_cases h2 : k = i
    · subst h2
      rw [if_neg (by intro hcon; exact h1 hcon.1.symm), if_pos ⟨rfl, hi⟩,
        if_neg h1, if_pos rfl]
    · rw [if_neg (by intro hcon; exact h1 hcon.1.symm),
        if_neg (by intro hcon; exact h2 hcon.1.symm), if_neg h1, if_neg h2]

theorem swapConsPerm : ∀ (j : Nat) (xs : List Int) (x : Int), j < xs.length →
    List.Perm (xs.getD j 0 :: xs.set j x) (x :: xs) := by
  intro j
  induction j with
  | zero =>
    intro xs x hj
    match xs with
    | y :: ys => exact List.Perm.swap x y ys
  | succ j ih =>
    intro xs x hj
    match xs with
    | y :: ys =>
      have h1 : List.Perm ((y :: ys).getD (j + 1) 0 :: (y :: ys).set (j + 1) x)
          (y :: ys.getD j 0 :: ys.set j x) := List.Perm.swap y _ _
      have h2 : List.Perm (y :: ys.getD j 0 :: ys.set j x) (y :: x :: ys) :=
        List.Perm.cons y (ih ys x (by simpa using hj))
      exact (h1.trans h2).trans (List.Perm.swap x y ys)

theorem listSwap_perm : ∀ (i j : Nat) (l : List Int), i ≤ j → j < l.length →
    List.Perm (listSwap l i j) l := by
  intro i
  induction i with
  | zero =>
    intro j l _ hj
    match l with
    | a :: as =>
      match j with
      | 0 => simp [listSwap]
      | j + 1 =>
        have hshape : listSwap (a :: as) 0 (j + 1) =
            as.getD j 0 :: as.set j a := by
          simp [listSwap]
        rw [hshape]
        exact swapConsPerm j as a (by simpa using hj)
  | succ i ih =>
    intro j l hij hj
    match j with
    | j + 1 =>
      match l with
      | a :: as =>
        have hshape : listSwap (a :: as) (i + 1) (j + 1) = a :: listSwap as i j := by
          simp [listSwap]
        rw [hshape]
        exact List.Perm.cons a (ih j as (Nat.le_of_succ_le_succ hij) (by simpa using hj))

/-- The full invariant of the Lomuto partition loop: `low` is where the
scan began; positions `[low, i)` hold values `≤ pivot`, positions `[i, j)`
hold values `> pivot`.  At exit (`j = high`) the loop has rearranged only
`[i, high)`, permuting the list, and the two value regions meet at the
returned index. -/
theorem lomuto_spec :
    ∀ (arr : List Int) (pivot : Int) (i j high : Nat) (low : Nat),
    low ≤ i → i ≤ j → j ≤ high → high < arr.length →
    (∀ k, low ≤ k → k < i → arr.getD k 0 ≤ pivot) →
    (∀ k, i ≤ k → k < j → pivot < arr.getD k 0) →
    ((lomuto arr pivot i j high).1.length = arr.length ∧
      List.Perm (lomuto arr pivot i j high).1 arr) ∧
    (∀ k, k < i ∨ high ≤ k →
      (lomuto arr pivot i j high).1.getD k 0 = arr.getD k 0) ∧
    (∀ k, low ≤ k → k < (lomuto arr pivot i j high).2 →
      (lomuto arr pivot i j high).1.getD k 0 ≤ pivot) ∧
    (∀ k, (lomuto arr pivot i j high).2 ≤ k → k < high →
      pivot < (lomuto arr pivot i j high).1.getD k 0) := by
  intro arr pivot i j high
  induction arr, pivot, i, j, high using lomuto.induct with
  | case1 arr pivot i j high hj hle ih =>
    intro low hlow hij hjh hlen hA hB
    rw [lomuto, if_pos hj, if_pos hle]
    have hi_lt : i < arr.length := by omega
    have hj_lt : j < arr.length := by omega
    have hswap := getD_listSwap arr i j
    have hA' : ∀ k, low ≤ k → k < i + 1 → (listSwap arr i j).getD k 0 ≤ pivot := by
      intro k hk1 hk2
      rw [hswap k hi_lt hj_lt]
      by_cases hkj : k = j
      · rw [if_pos hkj]
        have hij2 : i = j := by omega
        rw [hij2]
        exact hle
      · rw [if_neg hkj]
        by_cases hki : k = i
        · rw [if_pos hki]; exact hle
        · rw [if_neg hki]
          exact hA k hk1 (by omega)
    have hB' : ∀ k, i + 1 ≤ k → k < j + 1 → pivot < (listSwap arr i j).getD k 0 := by
      intro k hk1 hk2
      rw [hswap k hi_lt hj_lt]
      by_cases hkj : k = j
      · rw [if_pos hkj]
        exact hB i (le_refl i) (by omega)
      · rw [if_neg hkj, if_neg (by omega : ¬ k = i)]
        exact hB k (by omega) (by omega)
    have hrec := ih low (by omega) (by omega) (by omega)
      (by rw [length_listSwap]; exact hlen) hA' hB'
    obtain ⟨⟨hrl, hrp⟩, hrf, hrA, hrB⟩ := hrec
    refine ⟨⟨by rw [hrl, length_listSwap], hrp.trans (listSwap_perm i j arr hij hj_lt)⟩,
      ?_, hrA, hrB⟩
    intro k hk
    rw [hrf k (by omega), hswap k hi_lt hj_lt]
    rcases hk with hk | hk
    · rw [if_neg (by omega : ¬ k = j), if_neg (by omega : ¬ k = i)]
    · rw [if_neg (by omega : ¬ k = j), if_neg (by omega : ¬ k = i)]
  | case2 arr pivot i j high hj hle ih =>
    intro low hlow hij hjh hlen hA hB
    rw [lomuto, if_pos hj, if_neg hle]
    have hB' : ∀ k, i ≤ k → k < j + 1 → pivot < arr.getD k 0 := by
      intro k hk1 hk2
      by_cases hkj : k = j
      · rw [hkj]; exact lt_of_not_le hle
      · exact hB k hk1 (by omega)
    exact ih low hlow (by omega) (by omega) hlen hA hB'
  | case3 arr pivot i j high hj =>
    intro low hlow hij hjh hlen hA hB
    rw [lomuto, if_neg hj]
    have hjh' : j = high := by omega
    exact ⟨⟨rfl, List.Perm.refl arr⟩, fun k _ => rfl,
      fun k hk1 hk2 => hA k hk1 hk2, fun k hk1 hk2 => hB k hk1 (by omega)⟩

/-- Full specification of `partition`: length and multiset preserved, only
`[low, high]` rewritten, the pivot (`arr[high]`) lands at the returned
index with smaller-or-equal values on its left and strictly greater ones
on its right within the segment. -/
theorem partition_spec (arr : List Int) (low high : Nat)
    (hlh : low ≤ high) (hlen : high < arr.length) :
    (partition arr low high).1.length = arr.length ∧
    List.Perm (partition arr low high).1 arr ∧
    (∀ k, k < low ∨ high < k →
      (partition arr low high).1.getD k 0 = arr.getD k 0) ∧
    (partition arr low high).1.getD (partition arr low high).2 0
      = arr.getD high 0 ∧
    (∀ k, low ≤ k → k < (partition arr low high).2 →
      (partition arr low high).1.getD k 0
        ≤ (partition arr low high).1.getD (partition arr low high).2 0) ∧
    (∀ k, (partition arr low high).2 < k → k ≤ high →
      (partition arr low high).1.getD (partition arr low high).2 0
        < (partition arr low high).1.getD k 0) := by
  have hbounds := lomuto_snd_bounds arr (arr.getD high 0) low low high
  obtain ⟨⟨hl, hp⟩, hf, hA, hB⟩ :=
    lomuto_spec arr (arr.getD high 0) low low high low (le_refl low) (le_refl low)
      hlh hlen (fun k hk1 hk2 => absurd hk1 (by omega))
      (fun k hk1 hk2 => absurd hk1 (by omega))
  set pr := lomuto arr (arr.getD high 0) low low high with hpr
  have hple : pr.2 ≤ high := by omega
  have hplow : low ≤ pr.2 := by omega
  have hp_lt : pr.2 < pr.1.length := by omega
  have hh_lt : high < pr.1.length := by omega
  have hprhigh : pr.1.getD high 0 = arr.getD high 0 := hf high (Or.inr (le_refl high))
  have hres : (partition arr low high).1 = listSwap pr.1 pr.2 high := rfl
  have hres2 : (partition arr low high).2 = pr.2 := rfl
  have hgd := getD_listSwap pr.1 pr.2 high
  have hpivotpos : (listSwap pr.1 pr.2 high).getD pr.2 0 = arr.getD high 0 := by
    rw [hgd pr.2 hp_lt hh_lt]
    by_cases hph : pr.2 = high
    · rw [if_pos hph, hph, hprhigh]
    · rw [if_neg hph, if_pos rfl, hprhigh]
  rw [hres, hres2]
  refine ⟨by rw [length_listSwap, hl], ?_, ?_, hpivotpos, ?_, ?_⟩
  · exact (listSwap_perm pr.2 high pr.1 hple hh_lt).trans hp
  · intro k hk
    rw [hgd k hp_lt hh_lt,
      if_neg (by omega : ¬ k = high), if_neg (by omega : ¬ k = pr.2)]
    exact hf k (by omega)
  · intro k hk1 hk2
    rw [hpivotpos, hgd k hp_lt hh_lt,
      if_neg (by omega : ¬ k = high), if_neg (by omega : ¬ k = pr.2)]
    exact hA k hk1 hk2
  · intro k hk1 hk2
    rw [hpivotpos, hgd k hp_lt hh_lt]
    by_cases hkh : k = high
    · rw [if_pos hkh]
      exact hB pr.2 (le_refl _) (by omega)
    · rw [if_neg hkh, if_neg (by omega : ¬ k = pr.2)]
      exact hB k (by omega) (by omega)

/-! Slices of a list (the segment a recursive `quick_sort` call owns). -/

/-- The segment `l[a : a + w]`. -/
def sliceD (l : List Int) (a w : Nat) : List Int := (l.drop a).take w

theorem sliceD_getD (l : List Int) (a w k : Nat) (h : k < w) :
    (sliceD l a w).getD k 0 = l.getD (a + k) 0 := by
  rw [List.getD_eq_getElem?_getD, List.getD_eq_getElem?_getD, sliceD,
    List.getElem?_take, if_pos h, List.getElem?_drop]

theorem sliceD_length (l : List Int) (a w : Nat) :
    (sliceD l a w).length = min w (l.length - a) := by
  rw [sliceD, List.length_take, List.length_drop]

theorem mem_sliceD_iff (l : List Int) (a w : Nat) (x : Int) :
    x ∈ sliceD l a w ↔ ∃ k, k < w ∧ a + k < l.length ∧ l.getD (a + k) 0 = x := by
  rw [List.mem_iff_getElem]
  constructor
  · rintro ⟨n, hn, hx⟩
    rw [sliceD_length] at hn
    refine ⟨n, by omega, by omega, ?_⟩
    rw [← sliceD_getD l a w n (by omega), List.getD_eq_getElem, hx]
  · rintro ⟨k, hk1, hk2, hx⟩
    refine ⟨k, by rw [sliceD_length]; omega, ?_⟩
    rw [← List.getD_eq_getElem (sliceD l a w) 0 (by rw [sliceD_length]; omega),
      sliceD_getD l a w k hk1, hx]

theorem take_eq_of_getD_eq (l1 l2 : List Int) (a : Nat)
    (hlen : l1.length = l2.length)
    (h : ∀ k, k < a → l1.getD k 0 = l2.getD k 0) :
    l1.take a = l2.take a := by
  apply List.ext_getElem?
  intro n
  rw [List.getElem?_take, List.getElem?_take]
  by_cases hn : n < a
  · rw [if_pos hn, if_pos hn]
    by_cases hn2 : n < l1.length
    · rw [List.getElem?_eq_getElem hn2, List.getElem?_eq_getElem (hlen ▸ hn2)]
      have := h n hn
      rw [List.getD_eq_getElem l1 0 hn2, List.getD_eq_getElem l2 0 (hlen ▸ hn2)] at this
      rw [this]
    · rw [List.getElem?_eq_none (by omega), List.getElem?_eq_none (by omega)]
  · rw [if_neg hn, if_neg hn]

theorem drop_eq_of_getD_eq (l1 l2 : List Int) (b : Nat)
    (hlen : l1.length = l2.length)
    (h : ∀ k, b ≤ k → l1.getD k 0 = l2.getD k 0) :
    l1.drop b = l2.drop b := by
  apply List.ext_getElem?
  intro n
  rw [List.getElem?_drop, List.getElem?_drop]
  by_cases hn2 : b + n < l1.length
  · rw [List.getElem?_eq_getElem hn2, List.getElem?_eq_getElem (hlen ▸ hn2)]
    have := h (b + n) (by omega)
    rw [List.getD_eq_getElem l1 0 hn2, List.getD_eq_getElem l2 0 (hlen ▸ hn2)] at this
    rw [this]
  · rw [List.getElem?_eq_none (by omega), List.getElem?_eq_none (by omega)]

/-- A permutation of the whole list that fixes everything outside
`[a, b]` permutes the segment `[a, b]`. -/
theorem sliceD_perm_of_frame (l1 l2 : List Int) (a b : Nat)
    (hab : a ≤ b + 1)
    (hlen : l1.length = l2.length) (hperm : List.Perm l1 l2)
    (hframe : ∀ k, k < a ∨ b < k → l1.getD k 0 = l2.getD k 0) :
    List.Perm (sliceD l1 a (b + 1 - a)) (sliceD l2 a (b + 1 - a)) := by
  have htake : l1.take a = l2.take a :=
    take_eq_of_getD_eq l1 l2 a hlen (fun k hk => hframe k (Or.inl hk))
  have hdrop : l1.drop (b + 1) = l2.drop (b + 1) :=
    drop_eq_of_getD_eq l1 l2 (b + 1) hlen (fun k hk => hframe k (Or.inr (by omega)))
  have hdecomp : ∀ l : List Int,
      l = l.take a ++ (sliceD l a (b + 1 - a) ++ l.drop (b + 1)) := by
    intro l
    rw [sliceD]
    have h1 : (l.drop a).take (b + 1 - a) ++ (l.drop a).drop (b + 1 - a) = l.drop a :=
      List.take_append_drop _ _
    have h2 : (l.drop a).drop (b + 1 - a) = l.drop (b + 1) := by
      rw [List.drop_drop]
      congr 1
      omega
    rw [← h2, h1, List.take_append_drop]
  have hperm2 : List.Perm
      (l1.take a ++ (sliceD l1 a (b + 1 - a) ++ l1.drop (b + 1)))
      (l2.take a ++ (sliceD l2 a (b + 1 - a) ++ l2.drop (b + 1))) := by
    rw [← hdecomp l1, ← hdecomp l2]
    exact hperm
  rw [htake, List.perm_append_left_iff] at hperm2
  rw [hdrop, List.perm_append_right_iff] at hperm2
  exact hperm2

theorem quick_sort_stop (arr : List Int) (low high : Nat) (h : ¬ low < high) :
    quick_sort arr low high = arr := by
  rw [quick_sort]
  by_cases h1 : arr.length = 1
  · rw [if_pos h1]
  · rw [if_neg h1, dif_neg h]

/-- Full specification of `quick_sort`: it permutes the list, touches only
`[low, high]`, and leaves that segment in non-decreasing order. -/
theorem quick_sort_spec :
    ∀ (arr : List Int) (low high : Nat), high < arr.length →
    (quick_sort arr low high).length = arr.length ∧
    List.Perm (quick_sort arr low high) arr ∧
    (∀ k, k < low ∨ high < k →
      (quick_sort arr low high).getD k 0 = arr.getD k 0) ∧
    (∀ k1 k2, low ≤ k1 → k1 ≤ k2 → k2 ≤ high →
      (quick_sort arr low high).getD k1 0 ≤ (quick_sort arr low high).getD k2 0) := by
  intro arr low high
  induction arr, low, high using quick_sort.induct with
  | case1 arr low high h1 =>
    intro hlen
    rw [quick_sort, if_pos h1]
    refine ⟨rfl, List.Perm.refl arr, fun k _ => rfl, ?_⟩
    intro k1 k2 hk1 hk12 hk2
    have : k1 = k2 := by omega
    rw [this]
  | case3 arr low high h1 h2 =>
    intro hlen
    rw [quick_sort_stop arr low high h2]
    refine ⟨rfl, List.Perm.refl arr, fun k _ => rfl, ?_⟩
    intro k1 k2 hk1 hk12 hk2
    have : k1 = k2 := by omega
    rw [this]
  | case2 arr low high h1 h2 pr ih1 ih1' ih2 =>
    intro hlen
    clear ih1'
    have hlh : low ≤ high := Nat.le_of_lt h2
    have hpb := partition_snd_bounds arr low high hlh
    obtain ⟨Blen, Bperm, Bframe, Bpiv, BA, BB⟩ := partition_spec arr low high hlh hlen
    set B := (partition arr low high).1 with hB
    set p := (partition arr low high).2 with hp
    have hplow : low ≤ p := hpb.1
    have hphigh : p ≤ high := hpb.2
    have hrec1 := ih1 (by rw [Blen]; omega)
    set a1 := quick_sort B low (p - 1) with ha1
    obtain ⟨len1, perm1, frame1, sort1⟩ := hrec1
    have hrec2 := ih2 (by rw [len1, Blen]; omega)
    set a2 := quick_sort a1 (p + 1) high with ha2
    obtain ⟨len2, perm2, frame2, sort2⟩ := hrec2
    have hunfold : quick_sort arr low high = a2 := by
      rw [quick_sort, if_neg h1, dif_pos h2]
    rw [hunfold]
    have ha1p : ∀ k, p ≤ k → a1.getD k 0 = B.getD k 0 := by
      intro k hk
      by_cases hp0 : p = 0
      · rw [ha1, hp0]
        rw [show (0 : Nat) - 1 = 0 from rfl, quick_sort_stop B low 0 (by omega)]
      · exact frame1 k (Or.inr (by omega))
    have ha2p : a2.getD p 0 = B.getD p 0 := by
      rw [frame2 p (Or.inl (by omega)), ha1p p (le_refl p)]
    have hleft : ∀ k, low ≤ k → k < p → a2.getD k 0 ≤ B.getD p 0 := by
      intro k hk1 hk2
      have hklen : k < a1.length := by rw [len1, Blen]; omega
      have hkval : a2.getD k 0 = a1.getD k 0 := frame2 k (Or.inl (by omega))
      have hmem : a1.getD k 0 ∈ sliceD a1 low (p - 1 + 1 - low) := by
        rw [mem_sliceD_iff]
        exact ⟨k - low, by omega, by rw [show low + (k - low) = k from by omega]; omega,
          by rw [show low + (k - low) = k from by omega]⟩
      have hsliceperm := sliceD_perm_of_frame a1 B low (p - 1)
        (by omega) len1 perm1 frame1
      have hmem2 : a1.getD k 0 ∈ sliceD B low (p - 1 + 1 - low) :=
        hsliceperm.mem_iff.mp hmem
      rw [mem_sliceD_iff] at hmem2
      obtain ⟨m, hm1, hm2, hm3⟩ := hmem2
      rw [hkval, ← hm3]
      exact BA (low + m) (by omega) (by omega)
    have hright : ∀ k, p < k → k ≤ high → B.getD p 0 < a2.getD k 0 := by
      intro k hk1 hk2
      have hklen : k < a2.length := by rw [len2, len1, Blen]; omega
      have hmem : a2.getD k 0 ∈ sliceD a2 (p + 1) (high + 1 - (p + 1)) := by
        rw [mem_sliceD_iff]
        refine ⟨k - (p + 1), by omega, ?_, ?_⟩
        · rw [show p + 1 + (k - (p + 1)) = k from by omega]; omega
        · rw [show p + 1 + (k - (p + 1)) = k from by omega]
      have hsliceperm := sliceD_perm_of_frame a2 a1 (p + 1) high
        (by omega) len2 perm2 frame2
      have hmem2 : a2.getD k 0 ∈ sliceD a1 (p + 1) (high + 1 - (p + 1)) :=
        hsliceperm.mem_iff.mp hmem
      rw [mem_sliceD_iff] at hmem2
      obtain ⟨m, hm1, hm2, hm3⟩ := hmem2
      rw [← hm3, ha1p (p + 1 + m) (by omega)]
      exact BB (p + 1 + m) (by omega) (by omega)
    refine ⟨by rw [len2, len1, Blen], (perm2.trans perm1).trans Bperm, ?_, ?_⟩
    · intro k hk
      have hk1 : a2.getD k 0 = a1.getD k 0 := by
        rcases hk with hk | hk
        · exact frame2 k (Or.inl (by omega))
        · exact frame2 k (Or.inr hk)
      have hk2 : a1.getD k 0 = B.getD k 0 := by
        rcases hk with hk | hk
        · exact frame1 k (Or.inl hk)
        · exact frame1 k (Or.inr (by omega))
      rw [hk1, hk2]
      exact Bframe k hk
    · intro k1 k2 hk1 hk12 hk2
      rcases Nat.lt_trichotomy k2 p with ho2 | hrfl2 | hgt2
      · have hs1 : a2.getD k1 0 = a1.getD k1 0 := frame2 k1 (Or.inl (by omega))
        have hs2 : a2.getD k2 0 = a1.getD k2 0 := frame2 k2 (Or.inl (by omega))
        rw [hs1, hs2]
        exact sort1 k1 k2 hk1 hk12 (by omega)
      · rcases Nat.lt_or_ge k1 p with ho1 | hge1
        · rw [hrfl2, ha2p]
          exact hleft k1 hk1 ho1
        · have : k1 = k2 := by omega
          rw [this]
      · rcases Nat.lt_trichotomy k1 p with ho1 | hrfl1 | hgt1
        · exact le_trans (hleft k1 hk1 ho1) (le_of_lt (hright k2 hgt2 hk2))
        · rw [hrfl1, ha2p]
          exact le_of_lt (hright k2 hgt2 hk2)
        · exact sort2 k1 k2 (by omega) hk12 hk2

theorem sorted_of_getD_pairwise (l : List Int)
    (h : ∀ k1 k2, k1 ≤ k2 → k2 < l.length → l.getD k1 0 ≤ l.getD k2 0) :
    List.Sorted (· ≤ ·) l := by
  rw [List.Sorted, List.pairwise_iff_getElem]
  intro i j hi hj hij
  have hle := h i j (le_of_lt hij) hj
  rwa [List.getD_eq_getElem l 0 hi, List.getD_eq_getElem l 0 hj] at hle

theorem bubble_sort_correct (l : List Int) :
    List.Sorted (· ≤ ·) (bubble_sort l) ∧ List.Perm (bubble_sort l) l :=
  bubbleLoop_spec l.length l (le_refl _) (by simp) (by simp)

theorem quick_sortTop_correct (l : List Int) :
    List.Sorted (· ≤ ·) (quick_sortTop l) ∧ List.Perm (quick_sortTop l) l := by
  match l with
  | [] =>
    rw [quick_sortTop]
    rw [show ([] : List Int).length - 1 = 0 from rfl]
    rw [quick_sort_stop [] 0 0 (by omega)]
    exact ⟨by simp, List.Perm.refl []⟩
  | a :: rest =>
    rw [quick_sortTop]
    have hlen : (a :: rest).length - 1 < (a :: rest).length := by
      simp
    obtain ⟨hql, hqp, _, hqs⟩ := quick_sort_spec (a :: rest) 0 ((a :: rest).length - 1) hlen
    refine ⟨?_, hqp⟩
    apply sorted_of_getD_pairwise
    intro k1 k2 hk12 hk2
    rw [hql] at hk2
    exact hqs k1 k2 (Nat.zero_le k1) hk12 (by omega)

/-- C3: each of `bubble_sort`, `merge_sort`, and `quick_sort` (entered as
`quick_sort(arr, 0, len-1)`) leaves the sequence a permutation of the
input arranged in non-decreasing order. -/
theorem sorts_produce_sorted_permutation (l : List Int) :
    (List.Perm (bubble_sort l) l ∧ List.Sorted (· ≤ ·) (bubble_sort l)) ∧
    (List.Perm (merge_sort l) l ∧ List.Sorted (· ≤ ·) (merge_sort l)) ∧
    (List.Perm (quick_sortTop l) l ∧ List.Sorted (· ≤ ·) (quick_sortTop l)) :=
  ⟨⟨(bubble_sort_correct l).2, (bubble_sort_correct l).1⟩,
   ⟨merge_sort_perm l, merge_sort_sorted l⟩,
   ⟨(quick_sortTop_correct l).2, (quick_sortTop_correct l).1⟩⟩

/-! ## Binary search vs linear search (C8) -/

/-- The script's calling convention: `binary_search(arr, 0, len(arr)-1, x)`
(the `-1` is genuine `Int` arithmetic: the initial `high` is `-1` on an
empty sequence). -/
def binary_searchTop (arr : List Int) (x : Int) : Int :=
  binary_search arr 0 ((arr.length : Int) - 1) x

theorem getD_mono_of_sorted (l : List Int) (h : List.Sorted (· ≤ ·) l) :
    ∀ i j : Nat, i ≤ j → j < l.length → l.getD i 0 ≤ l.getD j 0 := by
  intro i j hij hj
  rcases Nat.lt_or_ge i j with hlt | hge
  · rw [List.getD_eq_getElem l 0 (by omega), List.getD_eq_getElem l 0 hj]
    exact (List.pairwise_iff_getElem.mp h) i j (by omega) hj hlt
  · have : i = j := by omega
    rw [this]

theorem lsAux_eq_neg_one_iff (x : Int) :
    ∀ (arr : List Int) (i : Nat), lsAux arr x i = -1 ↔ x ∉ arr := by
  intro arr
  induction arr with
  | nil => intro i; simp [lsAux]
  | cons a rest ih =>
    intro i
    rw [lsAux]
    by_cases ha : a = x
    · rw [if_pos ha]
      simp only [List.mem_cons]
      constructor
      · intro hcon; omega
      · intro hcon; exact absurd (Or.inl ha.symm) hcon
    · rw [if_neg ha, ih (i + 1)]
      simp only [List.mem_cons]
      constructor
      · intro hni hcon
        rcases hcon with rfl | hcon
        · exact ha rfl
        · exact hni hcon
      · intro hni hcon
        exact hni (Or.inr hcon)

theorem linear_search_eq_neg_one_iff (arr : List Int) (x : Int) :
    linear_search arr x = -1 ↔ x ∉ arr := lsAux_eq_neg_one_iff x arr 0

/-- A non-`-1` result of `binary_search` is an in-range index whose entry
is the target (no sortedness needed: the index is returned only on a
direct hit). -/
theorem binary_search_found (arr : List Int) :
    ∀ (low high x : Int), 0 ≤ low →
    binary_search arr low high x ≠ -1 →
    low ≤ binary_search arr low high x ∧ binary_search arr low high x ≤ high ∧
      arr.getD (binary_search arr low high x).toNat 0 = x := by
  intro low high x
  induction low, high, x using binary_search.induct arr with
  | case1 low high hge =>
    intro hlow _
    rw [binary_search, dif_pos hge, if_pos rfl]
    refine ⟨by omega, by omega, rfl⟩
  | case2 low high x hge hne hgt ih =>
    intro hlow hres
    rw [binary_search, dif_pos hge, if_neg hne, if_pos hgt] at hres ⊢
    have hrec := ih hlow hres
    refine ⟨hrec.1, by omega, hrec.2.2⟩
  | case3 low high x hge hne hgt ih =>
    intro hlow hres
    rw [binary_search, dif_pos hge, if_neg hne, if_neg hgt] at hres ⊢
    have hrec := ih (by omega) hres
    refine ⟨by omega, hrec.2.1, hrec.2.2⟩
  | case4 low high x hge =>
    intro hlow hres
    rw [binary_search, dif_neg hge] at hres
    exact absurd rfl hres

/-- When `binary_search` answers `-1` on a sorted segment, the target is at
no in-range index. -/
theorem binary_search_not_found (arr : List Int) (hs : List.Sorted (· ≤ ·) arr) :
    ∀ (low high x : Int), 0 ≤ low → high < (arr.length : Int) →
    binary_search arr low high x = -1 →
    ∀ k : Nat, low ≤ (k : Int) → (k : Int) ≤ high → arr.getD k 0 ≠ x := by
  intro low high x
  induction low, high, x using binary_search.induct arr with
  | case1 low high hge =>
    intro hlow _ hres
    rw [binary_search, dif_pos hge, if_pos rfl] at hres
    exact absurd hres (by omega)
  | case2 low high x hge hne hgt ih =>
    intro hlow hhigh hres k hk1 hk2
    rw [binary_search, dif_pos hge, if_neg hne, if_pos hgt] at hres
    rcases Int.lt_or_le (k : Int) ((high + low) / 2) with hk | hk
    · exact ih hlow (by omega) hres k hk1 (by omega)
    · intro hcon
      have hmono := getD_mono_of_sorted arr hs ((high + low) / 2).toNat k
        (by omega) (by omega)
      rw [hcon] at hmono
      omega
  | case3 low high x hge hne hgt ih =>
    intro hlow hhigh hres k hk1 hk2
    rw [binary_search, dif_pos hge, if_neg hne, if_neg hgt] at hres
    rcases Int.lt_or_le ((high + low) / 2) (k : Int) with hk | hk
    · exact ih (by omega) hhigh hres k (by omega) hk2
    · intro hcon
      have hmono := getD_mono_of_sorted arr hs k ((high + low) / 2).toNat
        (by omega) (by omega)
      rw [hcon] at hmono
      omega
  | case4 low high x hge =>
    intro hlow hhigh hres k hk1 hk2
    omega

/-- C8: on an ascending-sorted sequence, `binary_search(arr, 0, len-1, x)`
answers `-1` exactly when `linear_search` does, and otherwise returns a
valid index holding the target (the indices may differ under duplicates). -/
theorem binary_search_agrees_linear_search (arr : List Int) (x : Int)
    (hs : List.Sorted (· ≤ ·) arr) :
    (binary_searchTop arr x = -1 ↔ linear_search arr x = -1) ∧
    (binary_searchTop arr x ≠ -1 →
      (binary_searchTop arr x).toNat < arr.length ∧
        arr.getD (binary_searchTop arr x).toNat 0 = x ∧ linear_search arr x ≠ -1) := by
  have hfound := binary_search_found arr 0 ((arr.length : Int) - 1) x (le_refl 0)
  have hmem : binary_searchTop arr x ≠ -1 →
      (binary_searchTop arr x).toNat < arr.length ∧
        arr.getD (binary_searchTop arr x).toNat 0 = x := by
    intro hne
    obtain ⟨h1, h2, h3⟩ := hfound hne
    exact ⟨by rw [binary_searchTop] at *; omega, h3⟩
  constructor
  · constructor
    · intro hneg
      rw [linear_search_eq_neg_one_iff]
      intro hxmem
      obtain ⟨n, hn, hval⟩ := List.mem_iff_getElem.mp hxmem
      exact binary_search_not_found arr hs 0 ((arr.length : Int) - 1) x (le_refl 0)
        (by omega) hneg n (by omega) (by omega)
        (by rw [List.getD_eq_getElem arr 0 hn]; exact hval)
    · intro hls
      by_contra hne
      obtain ⟨hlt, hval⟩ := hmem hne
      rw [linear_search_eq_neg_one_iff] at hls
      apply hls
      rw [← hval]
      rw [List.getD_eq_getElem arr 0 hlt]
      exact List.getElem_mem hlt
  · intro hne
    obtain ⟨hlt, hval⟩ := hmem hne
    refine ⟨hlt, hval, ?_⟩
    intro hcon
    rw [linear_search_eq_neg_one_iff] at hcon
    apply hcon
    rw [← hval, List.getD_eq_getElem arr 0 hlt]
    exact List.getElem_mem hlt

/-- Witness for `binary_search_agrees_linear_search` on the script's own
sorted array `[2, 3, 4, 10, 40]` with target `10`. -/
theorem binary_search_agrees_linear_search_witness :
    List.Sorted (· ≤ ·) ([2, 3, 4, 10, 40] : List Int) ∧
    ((binary_searchTop [2, 3, 4, 10, 40] 10 = -1 ↔
        linear_search [2, 3, 4, 10, 40] 10 = -1) ∧
      (binary_searchTop [2, 3, 4, 10, 40] 10 ≠ -1 →
        (binary_searchTop [2, 3, 4, 10, 40] 10).toNat < ([2, 3, 4, 10, 40] : List Int).length ∧
          ([2, 3, 4, 10, 40] : List Int).getD (binary_searchTop [2, 3, 4, 10, 40] 10).toNat 0 = 10 ∧
            linear_search [2, 3, 4, 10, 40] 10 ≠ -1)) :=
  ⟨by decide, binary_search_agrees_linear_search [2, 3, 4, 10, 40] 10 (by decide)⟩

/-! ## Graph traversal lemmas (C6, C7, C10) -/

/-- Vertex `i` is marked in a Boolean visited array (out-of-range reads
count as unmarked, as Python's shorter array would rather raise). -/
def Mk (visited : List Bool) (i : Nat) : Prop := visited.getD i false = true

theorem Mk_lt_length (visited : List Bool) (i : Nat) (h : Mk visited i) :
    i < visited.length := by
  by_contra hcon
  rw [Mk, List.getD_eq_getElem?_getD, List.getElem?_eq_none (by omega)] at h
  cases h

theorem ddLookup_fst (g : GraphMap) (u : Nat) : (ddLookup g u).1 = adjOf g u := by
  rw [ddLookup, adjOf]
  cases g.find? (fun p => p.1 = u) with
  | none => rfl
  | some p => rfl

theorem adjOf_ddLookup (g : GraphMap) (u v : Nat) :
    adjOf (ddLookup g u).2 v = adjOf g v := by
  rw [ddLookup]
  cases hf : g.find? (fun p => p.1 = u) with
  | some p => rfl
  | none =>
    rw [adjOf, adjOf, List.find?_append]
    cases hg : g.find? (fun p => p.1 = v) with
    | some q => rfl
    | none =>
      by_cases huv : u = v
      · simp [huv]
      · simp [huv]

theorem keysOf_ddLookup_sub (g : GraphMap) (u v : Nat) (h : v ∈ keysOf g) :
    v ∈ keysOf (ddLookup g u).2 := by
  rw [ddLookup]
  cases hf : g.find? (fun p => p.1 = u) with
  | some p => exact h
  | none => rw [keysOf, List.map_append]; exact List.mem_append_left _ h

theorem mem_keysOf_ddLookup (g : GraphMap) (u : Nat) :
    u ∈ keysOf (ddLookup g u).2 := by
  rw [ddLookup]
  cases hf : g.find? (fun p => p.1 = u) with
  | some p =>
    have hmem := List.mem_of_find?_eq_some hf
    have hp := List.find?_some hf
    simp only [decide_eq_true_eq] at hp
    rw [keysOf]
    exact hp ▸ List.mem_map_of_mem (fun p => p.1) hmem
  | none =>
    rw [keysOf, List.map_append]
    exact List.mem_append_right _ (by simp)

theorem adjOf_eq_nil_of_not_key (g : GraphMap) (v : Nat) (h : v ∉ keysOf g) :
    adjOf g v = [] := by
  rw [adjOf]
  cases hf : g.find? (fun p => p.1 = v) with
  | none => rfl
  | some p =>
    have hmem := List.mem_of_find?_eq_some hf
    have hp := List.find?_some hf
    simp only [decide_eq_true_eq] at hp
    exact absurd (hp ▸ List.mem_map_of_mem (fun p => p.1) hmem) h

/-- Adjacency targets live among the vertices mentioned by the mapping. -/
theorem adjOf_sub_vertsOf (g : GraphMap) (u w : Nat) (h : w ∈ adjOf g u) :
    w ∈ vertsOf g := by
  rw [adjOf] at h
  cases hf : g.find? (fun p => p.1 = u) with
  | none => rw [hf] at h; cases h
  | some p =>
    rw [hf] at h
    have hmem := List.mem_of_find?_eq_some hf
    clear hf
    induction g with
    | nil => cases hmem
    | cons q rest ih =>
      rw [vertsOf, List.foldr_cons, ← vertsOf]
      rcases List.mem_cons.mp hmem with rfl | hmem2
      · exact List.mem_cons_of_mem _ (List.mem_append_left _ h)
      · exact List.mem_cons_of_mem _ (List.mem_append_right _ (ih hmem2))

/-- Everything reachable while avoiding a superset is reachable avoiding a
subset. -/
theorem ReachAvoid_mono (adj : Nat → List Nat) (a1 a2 : List Nat)
    (hsub : ∀ x ∈ a1, x ∈ a2) :
    ∀ u w, ReachAvoid adj a2 u w → ReachAvoid adj a1 u w := by
  intro u w h
  induction h with
  | refl v hv => exact ReachAvoid.refl v (fun hc => hv (hsub v hc))
  | cons u w x hu hw _ ih => exact ReachAvoid.cons u w x (fun hc => hu (hsub u hc)) hw ih

/-- A set of vertices closed under adjacency contains everything reachable
from any of its members. -/
theorem ReachAvoid_closed (adj : Nat → List Nat) (P : Nat → Prop)
    (hcl : ∀ u, P u → ∀ w ∈ adj u, P w) :
    ∀ u w, P u → ReachAvoid adj [] u w → P w := by
  intro u w hu h
  induction h with
  | refl v _ => exact hu
  | cons u w x _ hw _ ih => exact ih (hcl u hu w hw)

theorem enqueueNbrs_succeeds : ∀ (nbrs : List Nat) (visited : List Bool)
    (queue : List Nat), (∀ i ∈ nbrs, i < visited.length) →
    ∃ r, enqueueNbrs nbrs visited queue = some r := by
  intro nbrs
  induction nbrs with
  | nil => intro visited queue _; exact ⟨(visited, queue), rfl⟩
  | cons i rest ih =>
    intro visited queue hb
    have hi : i < visited.length := hb i (List.mem_cons_self i rest)
    rw [enqueueNbrs, List.getElem?_eq_getElem hi]
    cases hv : visited[i] with
    | true =>
      simp only [if_true]
      exact ih visited queue (fun j hj => hb j (List.mem_cons_of_mem i hj))
    | false =>
      simp only [Bool.false_eq_true, if_false]
      exact ih (visited.set i true) (queue ++ [i])
        (fun j hj => by rw [List.length_set]; exact hb j (List.mem_cons_of_mem i hj))

theorem Mk_set_iff (visited : List Bool) (i j : Nat) (hi : i < visited.length) :
    Mk (visited.set i true) j ↔ (j = i ∨ Mk visited j) := by
  rw [Mk, Mk, getD_set]
  by_cases hij : i = j
  · rw [if_pos ⟨hij, hi⟩]
    simp [hij.symm]
  · rw [if_neg (by intro hc; exact hij hc.1)]
    constructor
    · intro h; exact Or.inr h
    · rintro (rfl | h)
      · exact absurd rfl hij
      · exact h

theorem enqueueNbrs_spec : ∀ (nbrs : List Nat) (visited : List Bool)
    (queue : List Nat) (visited' : List Bool) (queue' : List Nat),
    enqueueNbrs nbrs visited queue = some (visited', queue') →
    visited'.length = visited.length ∧
    (∀ i ∈ nbrs, i < visited.length) ∧
    (∀ j, Mk visited' j ↔ (Mk visited j ∨ j ∈ nbrs)) ∧
    (∃ newq, queue' = queue ++ newq ∧
      (∀ q ∈ newq, q ∈ nbrs ∧ ¬ Mk visited q) ∧
      newq.Nodup ∧
      (∀ j ∈ nbrs, ¬ Mk visited j → j ∈ newq)) := by
  intro nbrs
  induction nbrs with
  | nil =>
    intro visited queue visited' queue' h
    simp only [enqueueNbrs, Option.some.injEq, Prod.mk.injEq] at h
    obtain ⟨h1, h2⟩ := h
    subst h1; subst h2
    refine ⟨rfl, by simp, by simp, [], by simp, by simp, by simp, by simp⟩
  | cons i rest ih =>
    intro visited queue visited' queue' h
    rw [enqueueNbrs] at h
    cases hv : visited[i]? with
    | none => rw [hv] at h; cases h
    | some b =>
      rw [hv] at h
      obtain ⟨hi, hval⟩ := List.getElem?_eq_some.mp hv
      cases b with
      | true =>
        simp only [if_true] at h
        have hMk : Mk visited i := by rw [Mk, List.getD_eq_getElem visited false hi, hval]
        obtain ⟨l1, l2, l3, newq, q1, q2, q3, q4⟩ := ih visited queue visited' queue' h
        refine ⟨l1, ?_, ?_, newq, q1, ?_, q3, ?_⟩
        · intro j hj
          rcases List.mem_cons.mp hj with rfl | hj
          · exact hi
          · exact l2 j hj
        · intro j
          rw [l3 j]
          constructor
          · rintro (hm | hm)
            · exact Or.inl hm
            · exact Or.inr (List.mem_cons_of_mem i hm)
          · rintro (hm | hm)
            · exact Or.inl hm
            · rcases List.mem_cons.mp hm with rfl | hm
              · exact Or.inl hMk
              · exact Or.inr hm
        · intro q hq
          obtain ⟨hq1, hq2⟩ := q2 q hq
          exact ⟨List.mem_cons_of_mem i hq1, hq2⟩
        · intro j hj hnm
          rcases List.mem_cons.mp hj with rfl | hj
          · exact absurd hMk hnm
          · exact q4 j hj hnm
      | false =>
        simp only [Bool.false_eq_true, if_false] at h
        have hnMk : ¬ Mk visited i := by
          rw [Mk, List.getD_eq_getElem visited false hi, hval]
          simp
        obtain ⟨l1, l2, l3, newq, q1, q2, q3, q4⟩ :=
          ih (visited.set i true) (queue ++ [i]) visited' queue' h
        rw [List.length_set] at l1 l2
        refine ⟨l1, ?_, ?_, i :: newq, by rw [q1, List.append_assoc]; rfl, ?_, ?_, ?_⟩
        · intro j hj
          rcases List.mem_cons.mp hj with rfl | hj
          · exact hi
          · exact l2 j hj
        · intro j
          rw [l3 j, Mk_set_iff visited i j hi]
          constructor
          · rintro ((rfl | hm) | hm)
            · exact Or.inr (List.mem_cons_self j rest)
            · exact Or.inl hm
            · exact Or.inr (List.mem_cons_of_mem i hm)
          · rintro (hm | hm)
            · exact Or.inl (Or.inr hm)
            · rcases List.mem_cons.mp hm with rfl | hm
              · exact Or.inl (Or.inl rfl)
              · exact Or.inr hm
        · intro q hq
          rcases List.mem_cons.mp hq with rfl | hq
          · exact ⟨List.mem_cons_self q rest, hnMk⟩
          · obtain ⟨hq1, hq2⟩ := q2 q hq
            refine ⟨List.mem_cons_of_mem i hq1, ?_⟩
            intro hcon
            exact hq2 ((Mk_set_iff visited i q hi).mpr (Or.inr hcon))
        · rw [List.nodup_cons]
          refine ⟨?_, q3⟩
          intro hcon
          exact (q2 i hcon).2 ((Mk_set_iff visited i i hi).mpr (Or.inl rfl))
        · intro j hj hnm
          rcases List.mem_cons.mp hj with rfl | hj
          · exact List.mem_cons_self j newq
          · by_cases hji : j = i
            · rw [hji]; exact List.mem_cons_self i newq
            · refine List.mem_cons_of_mem i (q4 j hj ?_)
              intro hcon
              rcases (Mk_set_iff visited i j hi).mp hcon with hji2 | hm
              · exact hji hji2
              · exact hnm hm

theorem bfsLoop_nil (g : GraphMap) (visited : List Bool) :
    bfsLoop g [] visited = some ([], g) := by
  rw [bfsLoop]

theorem bfsLoop_cons_some (g : GraphMap) (s : Nat) (rest : List Nat)
    (visited : List Bool) (vq : List Bool × List Nat)
    (h : enqueueNbrs (ddLookup g s).1 visited rest = some vq) :
    bfsLoop g (s :: rest) visited =
      match bfsLoop (ddLookup g s).2 vq.2 vq.1 with
      | none => none
      | some og => some (s :: og.1, og.2) := by
  rw [bfsLoop, h]

/-- Master invariant of the `while queue` loop of `bfs`, for a fixed
adjacency view `A`: given a duplicate-free queue of marked vertices, with
every already-processed marked vertex's neighbours marked, and everything
reachable from a marked vertex inside the visited array's range, the loop
completes and outputs — without repetition — exactly the still-pending
vertices: those reachable from the queue that are not already processed.
It also only ever extends the mapping with empty entries for the vertices
it dequeues. -/
theorem bfsLoop_spec (A : Nat → List Nat) :
    ∀ (n : Nat) (g : GraphMap) (queue : List Nat) (visited : List Bool),
    queue.length + visited.count false ≤ n →
    (∀ w, adjOf g w = A w) →
    queue.Nodup →
    (∀ q ∈ queue, Mk visited q) →
    (∀ u, Mk visited u → u ∉ queue → ∀ w ∈ A u, Mk visited w) →
    (∀ u, Mk visited u → ∀ w, ReachAvoid A [] u w → w < visited.length) →
    ∃ out g', bfsLoop g queue visited = some (out, g') ∧
      out.Nodup ∧
      (∀ u ∈ out, u ∈ queue ∨ ¬ Mk visited u) ∧
      (∀ u w, Mk visited u → ReachAvoid A [] u w →
        (w ∈ out ∨ (Mk visited w ∧ w ∉ queue))) ∧
      (∀ u ∈ out, ∃ q ∈ queue, ReachAvoid A [] q u) ∧
      (∀ w, adjOf g' w = adjOf g w) ∧
      (∀ w ∈ keysOf g, w ∈ keysOf g') ∧
      (∀ u ∈ out, u ∈ keysOf g') := by
  intro n
  induction n with
  | zero =>
    intro g queue visited hn hadj h1 h2 h4 h5
    have hq : queue = [] := by
      cases queue with
      | nil => rfl
      | cons a b => simp at hn
    subst hq
    rw [bfsLoop_nil]
    refine ⟨[], g, rfl, List.nodup_nil, by simp, ?_, by simp, fun w => rfl,
      fun w hw => hw, by simp⟩
    intro u w hu hr
    exact Or.inr ⟨ReachAvoid_closed A (Mk visited)
      (fun u' hu' => h4 u' hu' (by simp)) u w hu hr, by simp⟩
  | succ n ih =>
    intro g queue visited hn hadj h1 h2 h4 h5
    cases queue with
    | nil =>
      rw [bfsLoop_nil]
      refine ⟨[], g, rfl, List.nodup_nil, by simp, ?_, by simp, fun w => rfl,
        fun w hw => hw, by simp⟩
      intro u w hu hr
      exact Or.inr ⟨ReachAvoid_closed A (Mk visited)
        (fun u' hu' => h4 u' hu' (by simp)) u w hu hr, by simp⟩
    | cons s rest =>
      have hMks : Mk visited s := h2 s (List.mem_cons_self s rest)
      have hns : (ddLookup g s).1 = A s := by rw [ddLookup_fst, hadj]
      have hbound : ∀ i ∈ (ddLookup g s).1, i < visited.length := by
        rw [hns]
        intro i hi
        exact h5 s hMks i
          (ReachAvoid.cons s i i (by simp) hi (ReachAvoid.refl i (by simp)))
      obtain ⟨vq, henq⟩ := enqueueNbrs_succeeds (ddLookup g s).1 visited rest hbound
      obtain ⟨l1, l2, l3, newq, q1, q2, q3, q4⟩ :=
        enqueueNbrs_spec (ddLookup g s).1 visited rest vq.1 vq.2 (by rw [henq])
      rw [hns] at l2 l3 q2 q4
      have hmeas := enqueueNbrs_measure (ddLookup g s).1 visited rest vq.1 vq.2
        (by rw [henq])
      have hadj2 : ∀ w, adjOf (ddLookup g s).2 w = A w := by
        intro w; rw [adjOf_ddLookup, hadj]
      have hnodup2 : vq.2.Nodup := by
        rw [q1, List.nodup_append]
        refine ⟨(List.nodup_cons.mp h1).2, q3, ?_⟩
        intro q hq hq2
        exact (q2 q hq2).2 (h2 q (List.mem_cons_of_mem s hq))
      have hmarked2 : ∀ q ∈ vq.2, Mk vq.1 q := by
        intro q hq
        rw [q1, List.mem_append] at hq
        rcases hq with hq | hq
        · exact (l3 q).mpr (Or.inl (h2 q (List.mem_cons_of_mem s hq)))
        · exact (l3 q).mpr (Or.inr (q2 q hq).1)
      have hclosure2 : ∀ u, Mk vq.1 u → u ∉ vq.2 → ∀ w ∈ A u, Mk vq.1 w := by
        intro u hu hnq w hw
        rcases (l3 u).mp hu with hu2 | hu2
        · by_cases hus : u = s
          · subst hus
            exact (l3 w).mpr (Or.inr hw)
          · have hurest : u ∉ rest := by
              intro hcon
              exact hnq (by rw [q1, List.mem_append]; exact Or.inl hcon)
            have : u ∉ s :: rest := by
              rw [List.mem_cons]
              rintro (rfl | hcon)
              · exact hus rfl
              · exact hurest hcon
            exact (l3 w).mpr (Or.inl (h4 u hu2 this w hw))
        · by_cases hmk : Mk visited u
          · by_cases hus : u = s
            · subst hus
              exact (l3 w).mpr (Or.inr hw)
            · by_cases hurest : u ∈ rest
              · exact absurd (by rw [q1, List.mem_append]; exact Or.inl hurest) hnq
              · have hninq : u ∉ s :: rest := by
                  rw [List.mem_cons]
                  rintro (rfl | hcon)
                  · exact hus rfl
                  · exact hurest hcon
                exact (l3 w).mpr (Or.inl (h4 u hmk hninq w hw))
          · exact absurd (by rw [q1, List.mem_append]; exact Or.inr (q4 u hu2 hmk)) hnq
      have hrange2 : ∀ u, Mk vq.1 u → ∀ w, ReachAvoid A [] u w → w < vq.1.length := by
        intro u hu w hr
        rw [l1]
        rcases (l3 u).mp hu with hu2 | hu2
        · exact h5 u hu2 w hr
        · exact h5 s hMks w (ReachAvoid.cons s u w (by simp) hu2 hr)
      obtain ⟨out', g'', hbfs', nodup', mem', comp', sound', adj', keys', outkeys'⟩ :=
        ih (ddLookup g s).2 vq.2 vq.1
          (by simp only [List.length_cons] at hn; omega)
          hadj2 hnodup2 hmarked2 hclosure2 hrange2
      refine ⟨s :: out', g'', ?_, ?_, ?_, ?_, ?_, ?_, ?_, ?_⟩
      · rw [bfsLoop_cons_some g s rest visited vq henq, hbfs']
      · rw [List.nodup_cons]
        refine ⟨?_, nodup'⟩
        intro hcon
        rcases mem' s hcon with hs | hs
        · rw [q1, List.mem_append] at hs
          rcases hs with hs | hs
          · exact (List.nodup_cons.mp h1).1 hs
          · exact (q2 s hs).2 hMks
        · exact hs ((l3 s).mpr (Or.inl hMks))
      · intro u hu
        rcases List.mem_cons.mp hu with rfl | hu
        · exact Or.inl (List.mem_cons_self u rest)
        · rcases mem' u hu with hq | hq
          · rw [q1, List.mem_append] at hq
            rcases hq with hq | hq
            · exact Or.inl (List.mem_cons_of_mem s hq)
            · exact Or.inr (q2 u hq).2
          · refine Or.inr ?_
            intro hcon
            exact hq ((l3 u).mpr (Or.inl hcon))
      · intro u w hu hr
        rcases comp' u w ((l3 u).mpr (Or.inl hu)) hr with hw | ⟨hw1, hw2⟩
        · exact Or.inl (List.mem_cons_of_mem s hw)
        · rcases (l3 w).mp hw1 with hw3 | hw3
          · by_cases hws : w = s
            · exact Or.inl (hws ▸ List.mem_cons_self w out')
            · by_cases hwrest : w ∈ rest
              · exact absurd (by rw [q1, List.mem_append]; exact Or.inl hwrest) hw2
              · refine Or.inr ⟨hw3, ?_⟩
                rw [List.mem_cons]
                rintro (rfl | hcon)
                · exact hws rfl
                · exact hwrest hcon
          · by_cases hmk : Mk visited w
            · by_cases hws : w = s
              · exact Or.inl (hws ▸ List.mem_cons_self w out')
              · by_cases hwrest : w ∈ rest
                · exact absurd (by rw [q1, List.mem_append]; exact Or.inl hwrest) hw2
                · refine Or.inr ⟨hmk, ?_⟩
                  rw [List.mem_cons]
                  rintro (rfl | hcon)
                  · exact hws rfl
                  · exact hwrest hcon
            · exact absurd (by rw [q1, List.mem_append]; exact Or.inr (q4 w hw3 hmk)) hw2
      · intro u hu
        rcases List.mem_cons.mp hu with rfl | hu
        · exact ⟨u, List.mem_cons_self u rest, ReachAvoid.refl u (by simp)⟩
        · obtain ⟨q, hq, hr⟩ := sound' u hu
          rw [q1, List.mem_append] at hq
          rcases hq with hq | hq
          · exact ⟨q, List.mem_cons_of_mem s hq, hr⟩
          · exact ⟨s, List.mem_cons_self s rest,
              ReachAvoid.cons s q u (by simp) (q2 q hq).1 hr⟩
      · intro w
        rw [adj' w, adjOf_ddLookup]
      · intro w hw
        exact keys' w (keysOf_ddLookup_sub g s w hw)
      · intro u hu
        rcases List.mem_cons.mp hu with rfl | hu
        · exact keys' u (mem_keysOf_ddLookup g u)
        · exact outkeys' u hu

/-- The contract of a recursive `dfs_util` call against a fixed adjacency
view `A`: it preserves the adjacency view, only grows the key set (adding
the vertices it prints), appends exactly its printed output to the visited
set, prints its argument first, keeps the visited set duplicate-free,
marks every neighbour of every printed vertex, and prints only vertices
reachable from its argument while avoiding the incoming visited set. -/
def DfsSpec (A : Nat → List Nat)
    (rec : GraphMap → Nat → List Nat → Option (GraphMap × List Nat × List Nat)) :
    Prop :=
  ∀ g v vis g' vis' out, rec g v vis = some (g', vis', out) →
    (∀ w, adjOf g w = A w) →
    (∀ w, adjOf g' w = A w) ∧
    (∀ w ∈ keysOf g, w ∈ keysOf g') ∧
    (∀ u ∈ out, u ∈ keysOf g') ∧
    vis' = vis ++ out ∧
    (∃ rest, out = v :: rest) ∧
    (vis.Nodup → v ∉ vis → vis'.Nodup) ∧
    (∀ y ∈ out, ∀ w ∈ A y, w ∈ vis') ∧
    (v ∉ vis → ∀ u ∈ out, ReachAvoid A vis v u)

/-- The neighbour loop of `dfs_util` satisfies the analogous contract when
the recursive call does. -/
theorem dfsNbrs_spec (A : Nat → List Nat)
    (rec : GraphMap → Nat → List Nat → Option (GraphMap × List Nat × List Nat))
    (hrec : DfsSpec A rec) :
    ∀ (nbrs : List Nat) (g : GraphMap) (vis : List Nat)
      (g' : GraphMap) (vis' out : List Nat),
    dfsNbrs rec nbrs g vis = some (g', vis', out) →
    (∀ w, adjOf g w = A w) →
    (∀ w, adjOf g' w = A w) ∧
    (∀ w ∈ keysOf g, w ∈ keysOf g') ∧
    (∀ u ∈ out, u ∈ keysOf g') ∧
    vis' = vis ++ out ∧
    (vis.Nodup → vis'.Nodup) ∧
    (∀ y ∈ out, ∀ w ∈ A y, w ∈ vis') ∧
    (∀ n ∈ nbrs, n ∈ vis') ∧
    (∀ u ∈ out, ∃ n ∈ nbrs, n ∉ vis ∧ ReachAvoid A vis n u) := by
  intro nbrs
  induction nbrs with
  | nil =>
    intro g vis g' vis' out h hadj
    simp only [dfsNbrs, Option.some.injEq, Prod.mk.injEq] at h
    obtain ⟨h1, h2, h3⟩ := h
    subst h1; subst h2; subst h3
    exact ⟨hadj, fun w hw => hw, by simp, by simp, fun hd => hd, by simp, by simp,
      by simp⟩
  | cons n rest ih =>
    intro g vis g' vis' out h hadj
    rw [dfsNbrs] at h
    by_cases hn : n ∈ vis
    · rw [if_pos hn] at h
      obtain ⟨c1, c2, c3, c4, c5, c6, c7, c8⟩ := ih g vis g' vis' out h hadj
      refine ⟨c1, c2, c3, c4, c5, c6, ?_, ?_⟩
      · intro m hm
        rcases List.mem_cons.mp hm with rfl | hm
        · rw [c4]; exact List.mem_append_left _ hn
        · exact c7 m hm
      · intro u hu
        obtain ⟨m, hm1, hm2, hm3⟩ := c8 u hu
        exact ⟨m, List.mem_cons_of_mem n hm1, hm2, hm3⟩
    · rw [if_neg hn] at h
      cases hrec0 : rec g n vis with
      | none => rw [hrec0] at h; cases h
      | some gvo =>
        rw [hrec0] at h
        obtain ⟨g1, vis1, out1⟩ := gvo
        simp only [] at h
        obtain ⟨b1, b2, b3, b4, b5, b6, b7, b8⟩ :=
          hrec g n vis g1 vis1 out1 hrec0 hadj
        cases hrest : dfsNbrs rec rest g1 vis1 with
        | none => rw [hrest] at h; cases h
        | some gvo2 =>
          rw [hrest] at h
          obtain ⟨g2, vis2, out2⟩ := gvo2
          simp only [Option.map_some, Option.some.injEq, Prod.mk.injEq] at h
          obtain ⟨hg, hv, ho⟩ := h
          subst hg; subst hv; subst ho
          obtain ⟨c1, c2, c3, c4, c5, c6, c7, c8⟩ :=
            ih g1 vis1 g2 vis2 out2 hrest b1
          have hvis2 : vis2 = vis ++ (out1 ++ out2) := by
            rw [c4, b4, List.append_assoc]
          refine ⟨c1, fun w hw => c2 w (b2 w hw), ?_, hvis2, ?_, ?_, ?_, ?_⟩
          · intro u hu
            rcases List.mem_append.mp hu with hu | hu
            · exact c2 u (b3 u hu)
            · exact c3 u hu
          · intro hd
            exact c5 (b6 hd hn)
          · intro y hy w hw
            rcases List.mem_append.mp hy with hy | hy
            · rw [c4]
              exact List.mem_append_left _ (b7 y hy w hw)
            · exact c6 y hy w hw
          · intro m hm
            rcases List.mem_cons.mp hm with rfl | hm
            · obtain ⟨r1, hr1⟩ := b5
              rw [hvis2, hr1]
              exact List.mem_append_right _ (List.mem_append_left _
                (List.mem_cons_self m r1))
            · exact c7 m hm
          · intro u hu
            rcases List.mem_append.mp hu with hu | hu
            · exact ⟨n, List.mem_cons_self n rest, hn, b8 hn u hu⟩
            · obtain ⟨m, hm1, hm2, hm3⟩ := c8 u hu
              refine ⟨m, List.mem_cons_of_mem n hm1, ?_, ?_⟩
              · intro hcon
                exact hm2 (by rw [b4]; exact List.mem_append_left _ hcon)
              · exact ReachAvoid_mono A vis vis1 (fun x hx => by
                  rw [b4]; exact List.mem_append_left _ hx) m u hm3

/-- Every fuelled `dfs_util` obeys the DFS contract. -/
theorem dfsUtil_spec (A : Nat → List Nat) :
    ∀ fuel : Nat, DfsSpec A (dfsUtil fuel) := by
  intro fuel
  induction fuel with
  | zero =>
    intro g v vis g' vis' out h _
    cases h
  | succ fuel ih =>
    intro g v vis g' vis' out h hadj
    rw [dfsUtil] at h
    have hns : (ddLookup g v).1 = A v := by rw [ddLookup_fst, hadj]
    have hadj2 : ∀ w, adjOf (ddLookup g v).2 w = A w := by
      intro w; rw [adjOf_ddLookup, hadj]
    cases hnb : dfsNbrs (dfsUtil fuel) (ddLookup g v).1 (ddLookup g v).2 (vis ++ [v]) with
    | none => rw [hnb] at h; cases h
    | some gvo =>
      rw [hnb] at h
      obtain ⟨g2, vis2, out2⟩ := gvo
      simp only [Option.map_some, Option.some.injEq, Prod.mk.injEq] at h
      obtain ⟨hg, hv, ho⟩ := h
      subst hg; subst hv; subst ho
      obtain ⟨c1, c2, c3, c4, c5, c6, c7, c8⟩ :=
        dfsNbrs_spec A (dfsUtil fuel) ih (ddLookup g v).1
          (ddLookup g v).2 (vis ++ [v]) g2 vis2 out2 hnb hadj2
      rw [hns] at c7 c8
      refine ⟨c1, ?_, ?_, by rw [c4, List.append_assoc]; rfl, ⟨out2, rfl⟩,
        ?_, ?_, ?_⟩
      · intro w hw
        exact c2 w (keysOf_ddLookup_sub g v w hw)
      · intro u hu
        rcases List.mem_cons.mp hu with rfl | hu
        · exact c2 u (mem_keysOf_ddLookup g u)
        · exact c3 u hu
      · intro hd hv2
        apply c5
        rw [List.nodup_append]
        exact ⟨hd, List.nodup_singleton v, by
          intro x hx hx2
          rw [List.mem_singleton] at hx2
          subst hx2
          exact hv2 hx⟩
      · intro y hy w hw
        rcases List.mem_cons.mp hy with rfl | hy
        · exact c7 w hw
        · exact c6 y hy w hw
      · intro hv2 u hu
        rcases List.mem_cons.mp hu with rfl | hu
        · exact ReachAvoid.refl u hv2
        · obtain ⟨m, hm1, hm2, hm3⟩ := c8 u hu
          refine ReachAvoid.cons v m u hv2 hm1 ?_
          have hm4 : m ∉ vis := by
            intro hcon
            exact hm2 (List.mem_append_left _ hcon)
          exact ReachAvoid_mono A vis (vis ++ [v])
            (fun x hx => List.mem_append_left _ hx) m u hm3

theorem ReachAvoid_src_not_mem (adj : Nat → List Nat) (avoid : List Nat)
    (u w : Nat) (h : ReachAvoid adj avoid u w) : u ∉ avoid := by
  cases h with
  | refl _ hv => exact hv
  | cons _ _ _ hu _ _ => exact hu

/-- Completeness of a finished DFS call: its printed set is closed under
adjacency modulo the incoming visited set, so it swallows everything
reachable from any of its members. -/
theorem dfs_out_complete (A : Nat → List Nat) (vis out : List Nat)
    (hclo : ∀ y ∈ out, ∀ w ∈ A y, w ∈ vis ++ out) :
    ∀ y u, y ∈ out → ReachAvoid A vis y u → u ∈ out := by
  intro y u hy hr
  induction hr with
  | refl v _ => exact hy
  | cons a w x _ hw hr ih =>
    have hwvis : w ∉ vis := ReachAvoid_src_not_mem A vis w x hr
    have hwmem : w ∈ vis ++ out := hclo a hy w hw
    rcases List.mem_append.mp hwmem with hcon | hwout
    · exact absurd hcon hwvis
    · exact ih hwout

theorem card_diff_cons_lt (V : Finset Nat) (vis : List Nat) (v : Nat)
    (hv : v ∈ V) (hnv : v ∉ vis) :
    (V \ (vis ++ [v]).toFinset).card < (V \ vis.toFinset).card := by
  apply Finset.card_lt_card
  rw [Finset.ssubset_iff_of_subset]
  · refine ⟨v, ?_, ?_⟩
    · rw [Finset.mem_sdiff, List.mem_toFinset]
      exact ⟨hv, hnv⟩
    · rw [Finset.mem_sdiff, List.mem_toFinset]
      intro hcon
      exact hcon.2 (List.mem_append_right _ (List.mem_singleton_self v))
  · intro x hx
    rw [Finset.mem_sdiff, List.mem_toFinset] at hx ⊢
    exact ⟨hx.1, fun hcon => hx.2 (List.mem_append_left _ hcon)⟩

theorem card_diff_mono (V : Finset Nat) (vis1 vis2 : List Nat)
    (h : ∀ x ∈ vis1, x ∈ vis2) :
    (V \ vis2.toFinset).card ≤ (V \ vis1.toFinset).card := by
  apply Finset.card_le_card
  intro x hx
  rw [Finset.mem_sdiff, List.mem_toFinset] at hx ⊢
  exact ⟨hx.1, fun hcon => hx.2 (h x hcon)⟩

/-- With more fuel than there are candidate vertices outside the visited
set, `dfs_util` cannot run out (the recursion only descends to unvisited
vertices and marks them first). -/
theorem dfsUtil_succeeds (A : Nat → List Nat) (V : Finset Nat)
    (hAV : ∀ u w, w ∈ A u → w ∈ V) :
    ∀ (fuel : Nat) (g : GraphMap) (v : Nat) (vis : List Nat),
    (∀ w, adjOf g w = A w) → v ∈ V → v ∉ vis →
    (V \ vis.toFinset).card < fuel →
    ∃ r, dfsUtil fuel g v vis = some r := by
  intro fuel
  induction fuel with
  | zero =>
    intro g v vis _ _ _ hcard
    exact absurd hcard (by omega)
  | succ fuel ih =>
    intro g v vis hadj hvV hnv hcard
    have hns : (ddLookup g v).1 = A v := by rw [ddLookup_fst, hadj]
    have hadj2 : ∀ w, adjOf (ddLookup g v).2 w = A w := by
      intro w; rw [adjOf_ddLookup, hadj]
    have hcard1 : (V \ (vis ++ [v]).toFinset).card < fuel := by
      have := card_diff_cons_lt V vis v hvV hnv
      omega
    have hloop : ∀ (nbrs : List Nat), (∀ n ∈ nbrs, n ∈ V) →
        ∀ (g2 : GraphMap) (vis2 : List Nat), (∀ w, adjOf g2 w = A w) →
        (V \ vis2.toFinset).card < fuel →
        ∃ r, dfsNbrs (dfsUtil fuel) nbrs g2 vis2 = some r := by
      intro nbrs
      induction nbrs with
      | nil => exact fun _ g2 vis2 _ _ => ⟨(g2, vis2, []), rfl⟩
      | cons n rest ihn =>
        intro hnV g2 vis2 hadj2' hcard2
        rw [dfsNbrs]
        by_cases hn : n ∈ vis2
        · rw [if_pos hn]
          exact ihn (fun m hm => hnV m (List.mem_cons_of_mem n hm)) g2 vis2
            hadj2' hcard2
        · rw [if_neg hn]
          obtain ⟨⟨g3, vis3, out3⟩, h3⟩ :=
            ih g2 n vis2 hadj2' (hnV n (List.mem_cons_self n rest)) hn hcard2
          rw [h3]
          simp only []
          obtain ⟨b1, _, _, b4, _, _, _, _⟩ :=
            dfsUtil_spec A fuel g2 n vis2 g3 vis3 out3 h3 hadj2'
          have hcard3 : (V \ vis3.toFinset).card < fuel := by
            have := card_diff_mono V vis2 vis3
              (fun x hx => by rw [b4]; exact List.mem_append_left _ hx)
            omega
          obtain ⟨r4, h4⟩ :=
            ihn (fun m hm => hnV m (List.mem_cons_of_mem n hm)) g3 vis3 b1 hcard3
          rw [h4]
          exact ⟨_, rfl⟩
    obtain ⟨r, hr⟩ := hloop (ddLookup g v).1
      (by rw [hns]; intro n hn; exact hAV v n hn)
      (ddLookup g v).2 (vis ++ [v]) hadj2 hcard1
    rw [dfsUtil, hr]
    exact ⟨_, rfl⟩

/-- `dfs(v)` always completes, and its printed sequence lists each vertex
reachable from the start exactly once; the mapping only gains keys (for
exactly the printed vertices) and its adjacency view is unchanged. -/
theorem dfs_spec (g : GraphMap) (s : Nat) :
    ∃ g' vis' out, dfs g s = some (g', vis', out) ∧ out.Nodup ∧
      (∀ u, u ∈ out ↔ Reach (adjOf g) s u) ∧
      (∀ w, adjOf g' w = adjOf g w) ∧
      (∀ w ∈ keysOf g, w ∈ keysOf g') ∧
      (∀ u ∈ out, u ∈ keysOf g') := by
  have hAV : ∀ u w, w ∈ adjOf g u → w ∈ (s :: vertsOf g).toFinset := by
    intro u w hw
    rw [List.mem_toFinset]
    exact List.mem_cons_of_mem s (adjOf_sub_vertsOf g u w hw)
  have hcard : ((s :: vertsOf g).toFinset \ ([] : List Nat).toFinset).card
      < (s :: vertsOf g).length + 1 := by
    have h1 := List.toFinset_card_le (s :: vertsOf g)
    have h2 : ((s :: vertsOf g).toFinset \ ([] : List Nat).toFinset).card
        ≤ (s :: vertsOf g).toFinset.card :=
      Finset.card_le_card (Finset.sdiff_subset)
    omega
  obtain ⟨⟨g', vis', out⟩, hr⟩ := dfsUtil_succeeds (adjOf g)
    (s :: vertsOf g).toFinset hAV ((s :: vertsOf g).length + 1) g s []
    (fun w => rfl) (by rw [List.mem_toFinset]; exact List.mem_cons_self s _)
    (by simp) hcard
  obtain ⟨c1, c2, c3, c4, c5, c6, c7, c8⟩ :=
    dfsUtil_spec (adjOf g) ((s :: vertsOf g).length + 1) g s [] g' vis' out hr
      (fun w => rfl)
  rw [List.nil_append] at c4
  refine ⟨g', vis', out, hr, ?_, ?_, c1, c2, c3⟩
  · have := c6 List.nodup_nil (by simp)
    rwa [c4] at this
  · intro u
    constructor
    · intro hu
      exact c8 (by simp) u hu
    · intro hu
      obtain ⟨rest, hrest⟩ := c5
      refine dfs_out_complete (adjOf g) [] out ?_ s u ?_ hu
      · intro y hy w hw
        have := c7 y hy w hw
        rwa [c4] at this
      · rw [hrest]; exact List.mem_cons_self s rest

theorem bfsLoop_cons_none (g : GraphMap) (s : Nat) (rest : List Nat)
    (visited : List Bool)
    (h : enqueueNbrs (ddLookup g s).1 visited rest = none) :
    bfsLoop g (s :: rest) visited = none := by
  rw [bfsLoop, h]

theorem getD_replicate_false (B u : Nat) :
    (List.replicate B false).getD u false = false := by
  rw [List.getD_eq_getElem?_getD]
  by_cases h : u < B
  · rw [List.getElem?_eq_getElem (by simpa using h)]
    simp
  · rw [List.getElem?_eq_none (by simpa using h)]
    rfl

theorem Mk_init_iff (B s u : Nat) (hs : s < B) :
    Mk ((List.replicate B false).set s true) u ↔ u = s := by
  rw [Mk, getD_set]
  by_cases h : s = u
  · rw [if_pos ⟨h, by simpa using hs⟩]
    simp [h.symm]
  · rw [if_neg (by intro hc; exact h hc.1), getD_replicate_false]
    simp [Ne.symm h]

theorem bfs_eq_of_keys_cons (g : GraphMap) (s a : Nat) (as : List Nat)
    (hk : keysOf g = a :: as) :
    bfs g s = if s < (List.replicate (maxKey g + 1) false).length then
        bfsLoop g [s] ((List.replicate (maxKey g + 1) false).set s true)
      else none := by
  rw [bfs, hk]

/-- When the start index fits the visited array and every vertex reachable
from it does too, `bfs` completes and outputs — exactly once each — the
vertices reachable from the start, and only extends the mapping with empty
entries for the dequeued vertices. -/
theorem bfs_spec (g : GraphMap) (s : Nat) (hkeys : keysOf g ≠ [])
    (hs : s ≤ maxKey g)
    (hreach : ∀ w, Reach (adjOf g) s w → w ≤ maxKey g) :
    ∃ out g', bfs g s = some (out, g') ∧ out.Nodup ∧
      (∀ u, u ∈ out ↔ Reach (adjOf g) s u) ∧
      (∀ w, adjOf g' w = adjOf g w) ∧
      (∀ w ∈ keysOf g, w ∈ keysOf g') ∧
      (∀ u ∈ out, u ∈ keysOf g') := by
  cases hk : keysOf g with
  | nil => exact absurd hk hkeys
  | cons a as =>
    rw [bfs_eq_of_keys_cons g s a as hk,
      if_pos (by rw [List.length_replicate]; omega)]
    have hsB : s < maxKey g + 1 := by omega
    have hlen : ((List.replicate (maxKey g + 1) false).set s true).length
        = maxKey g + 1 := by
      rw [List.length_set, List.length_replicate]
    obtain ⟨out, g', heq, hnodup, hmem, hcomp, hsound, hadj', hkeys', houtkeys⟩ :=
      bfsLoop_spec (adjOf g)
        (([s] : List Nat).length +
          ((List.replicate (maxKey g + 1) false).set s true).count false)
        g [s] ((List.replicate (maxKey g + 1) false).set s true)
        (le_refl _) (fun w => rfl) (List.nodup_singleton s)
        (by
          intro q hq
          rw [List.mem_singleton] at hq
          subst hq
          exact (Mk_init_iff (maxKey g + 1) q q hsB).mpr rfl)
        (by
          intro u hu hnq w _
          exact absurd (by
            rw [List.mem_singleton]
            exact (Mk_init_iff (maxKey g + 1) s u hsB).mp hu) hnq)
        (by
          intro u hu w hr
          rw [hlen]
          have hus := (Mk_init_iff (maxKey g + 1) s u hsB).mp hu
          subst hus
          exact Nat.lt_succ_of_le (hreach w hr))
    rw [hk] at hkeys'
    refine ⟨out, g', heq, hnodup, ?_, hadj', hkeys', houtkeys⟩
    intro u
    constructor
    · intro hu
      obtain ⟨q, hq, hr⟩ := hsound u hu
      rw [List.mem_singleton] at hq
      subst hq
      exact hr
    · intro hu
      rcases hcomp s u ((Mk_init_iff (maxKey g + 1) s s hsB).mpr rfl) hu with
        h | ⟨h1, h2⟩
      · exact h
      · have := (Mk_init_iff (maxKey g + 1) s u hsB).mp h1
        subst this
        exact absurd (List.mem_singleton_self u) h2

/-- C7: `bfs` sizes its visited marker as `max(graph keys) + 1` (the
`List.replicate (maxKey g + 1) false` of the model); it fails whenever the
start exceeds the maximum key, and completes whenever the start and every
vertex reachable from it are bounded by that maximum. -/
theorem bfs_visited_sizing (g : GraphMap) (s : Nat) (hkeys : keysOf g ≠ []) :
    (maxKey g < s → bfs g s = none) ∧
    (s ≤ maxKey g → (∀ w, Reach (adjOf g) s w → w ≤ maxKey g) →
      ∃ r, bfs g s = some r) := by
  constructor
  · intro hgt
    cases hk : keysOf g with
    | nil => exact absurd hk hkeys
    | cons a as =>
      rw [bfs_eq_of_keys_cons g s a as hk,
        if_neg (by rw [List.length_replicate]; omega)]
  · intro h1 h2
    obtain ⟨out, g', heq, _⟩ := bfs_spec g s hkeys h1 h2
    exact ⟨(out, g'), heq⟩

/-- Witness for `bfs_visited_sizing` on the one-edge graph `1 → 0`:
its only key is `1`, `bfs` from the out-of-range start `5` fails, and
`bfs` from `1` (whose reachable set `{1, 0}` is within bounds) completes. -/
theorem bfs_visited_sizing_witness :
    (keysOf (buildGraph [(1, 0)]) ≠ [] ∧ maxKey (buildGraph [(1, 0)]) < 5 ∧
      bfs (buildGraph [(1, 0)]) 5 = none) ∧
    (1 ≤ maxKey (buildGraph [(1, 0)]) ∧ ∃ r, bfs (buildGraph [(1, 0)]) 1 = some r) := by
  have h5 := (bfs_visited_sizing (buildGraph [(1, 0)]) 5 (by decide)).1 (by decide)
  have h1 := (bfs_visited_sizing (buildGraph [(1, 0)]) 1 (by decide)).2 (by decide)
    (by
      have hcl : ∀ u, u ≤ maxKey (buildGraph [(1, 0)]) →
          ∀ w2 ∈ adjOf (buildGraph [(1, 0)]) u,
            w2 ≤ maxKey (buildGraph [(1, 0)]) := by decide
      intro w hw
      exact ReachAvoid_closed (adjOf (buildGraph [(1, 0)]))
        (fun x => x ≤ maxKey (buildGraph [(1, 0)])) hcl 1 w (by decide) hw)
  exact ⟨⟨by decide, by decide, h5⟩, ⟨by decide, h1⟩⟩

/-- C6 counterexample: in the graph built by `add_edge(0, 5)`, vertex 5 is
reachable from 0, yet `bfs(0)` raises an IndexError (the visited array has
size `max(keys) + 1 = 1`) and visits nothing — so `bfs` does not visit
exactly the reachable set for every graph and start. -/
theorem bfs_misses_reachable_example :
    bfs (buildGraph [(0, 5)]) 0 = none ∧
      Reach (adjOf (buildGraph [(0, 5)])) 0 5 := by
  constructor
  · rw [bfs_eq_of_keys_cons (buildGraph [(0, 5)]) 0 0 [] (by rfl),
      if_pos (by decide)]
    exact bfsLoop_cons_none _ 0 [] _ rfl
  · exact ReachAvoid.cons 0 5 5 (by simp) (by decide)
      (ReachAvoid.refl 5 (by simp))

/-- C6 amended: for every graph built by `add_edge` calls and every start
vertex `s`, `dfs(s)` visits exactly the set of vertices reachable from `s`
(including `s`), each exactly once; `bfs(s)` does the same PROVIDED the
graph has a key and `s` and every vertex reachable from it are bounded by
the maximum key (otherwise `bfs` dies on its fixed-size visited array, see
the counterexample and C7). -/
theorem dfs_bfs_visit_exactly_reachable (es : List (Nat × Nat)) (s : Nat) :
    (∃ g' vis' out, dfs (buildGraph es) s = some (g', vis', out) ∧ out.Nodup ∧
      (∀ u, u ∈ out ↔ Reach (adjOf (buildGraph es)) s u)) ∧
    (keysOf (buildGraph es) ≠ [] → s ≤ maxKey (buildGraph es) →
      (∀ w, Reach (adjOf (buildGraph es)) s w → w ≤ maxKey (buildGraph es)) →
      ∃ out g', bfs (buildGraph es) s = some (out, g') ∧ out.Nodup ∧
        (∀ u, u ∈ out ↔ Reach (adjOf (buildGraph es)) s u)) := by
  constructor
  · obtain ⟨g', vis', out, heq, hnodup, hiff, _⟩ := dfs_spec (buildGraph es) s
    exact ⟨g', vis', out, heq, hnodup, hiff⟩
  · intro h1 h2 h3
    obtain ⟨out, g', heq, hnodup, hiff, _⟩ := bfs_spec (buildGraph es) s h1 h2 h3
    exact ⟨out, g', heq, hnodup, hiff⟩

/-- Witness for `dfs_bfs_visit_exactly_reachable` on the script's own
graph, from start vertex 2. -/
theorem dfs_bfs_visit_exactly_reachable_witness :
    (keysOf (buildGraph [(0, 1), (0, 2), (1, 2), (2, 0), (2, 3), (3, 3)]) ≠ [] ∧
      2 ≤ maxKey (buildGraph [(0, 1), (0, 2), (1, 2), (2, 0), (2, 3), (3, 3)])) ∧
    (∃ out g',
      bfs (buildGraph [(0, 1), (0, 2), (1, 2), (2, 0), (2, 3), (3, 3)]) 2
          = some (out, g') ∧
        out.Nodup ∧
        (∀ u, u ∈ out ↔
          Reach (adjOf (buildGraph [(0, 1), (0, 2), (1, 2), (2, 0), (2, 3), (3, 3)]))
            2 u)) := by
  refine ⟨⟨by decide, by decide⟩, ?_⟩
  refine (dfs_bfs_visit_exactly_reachable
    [(0, 1), (0, 2), (1, 2), (2, 0), (2, 3), (3, 3)] 2).2 (by decide) (by decide) ?_
  have hcl : ∀ u, u ≤ maxKey (buildGraph [(0, 1), (0, 2), (1, 2), (2, 0), (2, 3), (3, 3)]) →
      ∀ w ∈ adjOf (buildGraph [(0, 1), (0, 2), (1, 2), (2, 0), (2, 3), (3, 3)]) u,
        w ≤ maxKey (buildGraph [(0, 1), (0, 2), (1, 2), (2, 0), (2, 3), (3, 3)]) := by
    decide
  intro w hw
  exact ReachAvoid_closed _ _ hcl 2 w (by decide) hw

/-- Graph-effect part of the BFS loop alone (no traversal invariants
needed): the mapping's adjacency view never changes, keys persist, and
every printed vertex ends up a key. -/
theorem bfsLoop_effects : ∀ (n : Nat) (g : GraphMap) (queue : List Nat)
    (visited : List Bool), queue.length + visited.count false ≤ n →
    ∀ out g', bfsLoop g queue visited = some (out, g') →
    (∀ w, adjOf g' w = adjOf g w) ∧
    (∀ w ∈ keysOf g, w ∈ keysOf g') ∧
    (∀ u ∈ out, u ∈ keysOf g') := by
  intro n
  induction n with
  | zero =>
    intro g queue visited hn out g' h
    have hq : queue = [] := by
      cases queue with
      | nil => rfl
      | cons a b => simp at hn
    subst hq
    rw [bfsLoop_nil] at h
    cases h
    exact ⟨fun w => rfl, fun w hw => hw, by simp⟩
  | succ n ih =>
    intro g queue visited hn out g' h
    cases queue with
    | nil =>
      rw [bfsLoop_nil] at h
      cases h
      exact ⟨fun w => rfl, fun w hw => hw, by simp⟩
    | cons s rest =>
      cases henq : enqueueNbrs (ddLookup g s).1 visited rest with
      | none => rw [bfsLoop_cons_none g s rest visited henq] at h; cases h
      | some vq =>
        rw [bfsLoop_cons_some g s rest visited vq henq] at h
        cases hloop : bfsLoop (ddLookup g s).2 vq.2 vq.1 with
        | none => rw [hloop] at h; cases h
        | some og =>
          rw [hloop] at h
          simp only [Option.some.injEq, Prod.mk.injEq] at h
          obtain ⟨h1, h2⟩ := h
          subst h2
          have hmeas := enqueueNbrs_measure (ddLookup g s).1 visited rest
            vq.1 vq.2 (by rw [henq])
          obtain ⟨e1, e2, e3⟩ := ih (ddLookup g s).2 vq.2 vq.1
            (by simp only [List.length_cons] at hn; omega) og.1 og.2 (by rw [hloop])
          refine ⟨?_, ?_, ?_⟩
          · intro w
            rw [e1 w, adjOf_ddLookup]
          · intro w hw
            exact e2 w (keysOf_ddLookup_sub g s w hw)
          · intro u hu
            rw [← h1] at hu
            rcases List.mem_cons.mp hu with rfl | hu
            · exact e2 u (mem_keysOf_ddLookup g u)
            · exact e3 u hu

/-- C10: both traversals mutate the graph's mapping through defaultdict
lookups: after a completed `bfs` or `dfs`, every visited vertex that was
not previously a key is present as a key with an empty adjacency list (so
traversal is not a read-only operation on the graph). -/
theorem traversal_autovivifies_keys (g : GraphMap) (s : Nat) :
    (∀ out g', bfs g s = some (out, g') →
      ∀ v ∈ out, v ∉ keysOf g → v ∈ keysOf g' ∧ adjOf g' v = []) ∧
    (∀ g' vis' out, dfs g s = some (g', vis', out) →
      ∀ v ∈ out, v ∉ keysOf g → v ∈ keysOf g' ∧ adjOf g' v = []) := by
  constructor
  · intro out g' h v hv hnk
    cases hk : keysOf g with
    | nil => rw [bfs, hk] at h; cases h
    | cons a as =>
      rw [bfs_eq_of_keys_cons g s a as hk] at h
      by_cases hlt : s < (List.replicate (maxKey g + 1) false).length
      · rw [if_pos hlt] at h
        obtain ⟨e1, _, e3⟩ := bfsLoop_effects
          (([s] : List Nat).length +
            ((List.replicate (maxKey g + 1) false).set s true).count false)
          g [s] ((List.replicate (maxKey g + 1) false).set s true)
          (le_refl _) out g' h
        exact ⟨e3 v hv, by rw [e1 v, adjOf_eq_nil_of_not_key g v hnk]⟩
      · rw [if_neg hlt] at h; cases h
  · intro g' vis' out h v hv hnk
    obtain ⟨c1, _, c3, _⟩ :=
      dfsUtil_spec (adjOf g) ((s :: vertsOf g).length + 1) g s [] g' vis' out h
        (fun w => rfl)
    exact ⟨c3 v hv, by rw [c1 v, adjOf_eq_nil_of_not_key g v hnk]⟩

/-- Witness for `traversal_autovivifies_keys`: `dfs` on the graph with the
single edge `2 → 1` visits `[2, 1]`; vertex 1, not previously a key, ends
up a key with an empty adjacency list. -/
theorem traversal_autovivifies_keys_witness :
    dfs (buildGraph [(2, 1)]) 2 = some ([(2, [1]), (1, [])], [2, 1], [2, 1]) ∧
      1 ∈ keysOf [(2, [1]), (1, [])] ∧ adjOf ([(2, [1]), (1, [])] : GraphMap) 1 = [] := by
  refine ⟨by decide, ?_⟩
  have h := (traversal_autovivifies_keys (buildGraph [(2, 1)]) 2).2
    [(2, [1]), (1, [])] [2, 1] [2, 1] (by decide) 1 (by decide) (by decide)
  exact h

end Roadmap
